import Mathlib

/-!
Verification development for the result-aggregation engine of the taurus
repository (`bzt/modules/aggregator.py`, `bzt/modules/jmeter.py`).

The Python code is shallowly embedded: the dict-backed `KPISet`/`DataPoint`
containers become Lean structures whose open-ended maps (`Counter`s,
label→KPISet dicts) are insertion-ordered association lists, mirroring the
insertion-ordered dicts of Python 3.  Floats become exact rationals `ℚ`.
Code paths that raise (`assert`, `IndexError`, `ValueError`) are embedded as
`Option`-valued functions returning `none` where Python raises.

`bzt.utils.BetterDict` is not part of the sources; its find-or-create
`get(key, default)` (which stores the default under the key when absent, as
exercised by `KPISet.__init__` and required by spec §4.2 "find-or-create the
corresponding StatSet") is modelled by `findOrCreate` below.
-/

namespace Taurus

/-- Association-list lookup with a default, mirroring Python's
`dict.get(key, default)` (two-argument read-only form, as used on plain
dicts/Counters such as `resp_codes.get(r_code, 0)`). -/
def lookupD [DecidableEq α] (m : List (α × β)) (k : α) (d : β) : β :=
  match m with
  | [] => d
  | (k', v) :: rest => if k' = k then v else lookupD rest k d

/-- Association-list assignment, mirroring Python's `dict[key] = value`:
an existing key keeps its position, a new key is appended (insertion order,
as in Python 3 dicts). -/
def assocSet [DecidableEq α] (m : List (α × β)) (k : α) (v : β) : List (α × β) :=
  match m with
  | [] => [(k, v)]
  | (k', v') :: rest => if k' = k then (k, v) :: rest else (k', v') :: assocSet rest k v

/-- Modelled from the spec: `bzt.utils.BetterDict.get(key, default)` is not
under `src/`; per spec §4.2 ("find-or-create the corresponding StatSet in
`current`'s map") and its use in `KPISet.__init__`, it returns the stored
value when the key is present and otherwise stores and returns the default.
Returns the value together with the (possibly extended) map. -/
def findOrCreate [DecidableEq α] (m : List (α × β)) (k : α) (d : β) : β × List (α × β) :=
  match m with
  | [] => (d, [(k, d)])
  | (k', v) :: rest =>
    if k' = k then (v, (k', v) :: rest)
    else
      let (r, rest') := findOrCreate rest k d
      (r, (k', v) :: rest')

/-- One `Counter` increment: `cnt[key] = cnt.get(key, 0) + n`. -/
def counterIncr [DecidableEq α] (m : List (α × ℕ)) (k : α) (n : ℕ) : List (α × ℕ) :=
  assocSet m k (lookupD m k 0 + n)

/-- Python's `Counter.update(other)`: add `other`'s counts into `self`,
existing keys in place, new keys appended in `other`'s order. -/
def counterUpdate [DecidableEq α] (self src : List (α × ℕ)) : List (α × ℕ) :=
  src.foldl (fun acc kv => counterIncr acc kv.1 kv.2) self

/-- Python's `Counter.__add__` (used by `item['urls'] += value['urls']` in
`KPISet.inc_list`): pointwise sum keeping only positive counts. -/
def counterAdd [DecidableEq α] (self src : List (α × ℕ)) : List (α × ℕ) :=
  (counterUpdate self src).filter (fun kv => 0 < kv.2)

/-- Key of the per-source concurrency map `KPISet._concurrencies`: in
`add_sample` the key is the sample's thread name (a string), in `merge_kpis`
it is the caller-supplied source id (`None` or an `id(...)` integer). -/
inductive CKey where
  | thread (t : String)
  | source (s : Option ℕ)
deriving DecidableEq

/-- One entry of the `KPISet` error list, `KPISet.error_item_skel`. -/
structure ErrItem where
  cnt : ℕ
  msg : String
  rc : Option String
  typ : ℕ
  urls : List (String × ℕ)
deriving DecidableEq

/-- `KPISet.error_item_skel(error, ret_c, cnt, errtype, urls)`. -/
def errorItemSkel (error : String) (ret_c : Option String) (cnt : ℕ) (errtype : ℕ)
    (urls : List (String × ℕ)) : ErrItem :=
  { cnt := cnt, msg := error, rc := ret_c, typ := errtype, urls := urls }

/-- The `KPISet` container of `bzt/modules/aggregator.py`.  Dict keys become
named fields (`throughput` = `SAMPLE_COUNT`, `succ` = `SUCCESSES`,
`fail` = `FAILURES`, `rt` = `RESP_TIMES`, `rc` = `RESP_CODES`,
`perc` = `PERCENTILES`); the `Counter`s become association lists.
`stdev_rt_sq` holds the exact radicand `sqr_diffs / len(cnts)` of the value
Python stores under `STDEV_RESP_TIME = math.sqrt(sqr_diffs / len(cnts))`;
the reading `KPISet.stdev_rt` below applies the (noncomputable) real square
root.  Percentile map keys are kept as the rational level itself where
Python uses the string `str(float(level))`. -/
structure KPISet where
  sum_rt : ℚ := 0
  sum_lt : ℚ := 0
  sum_cn : ℚ := 0
  perc_levels : List ℚ := []
  throughput : ℕ := 0
  concurrency : ℕ := 0
  succ : ℕ := 0
  fail : ℕ := 0
  avg_rt : ℚ := 0
  stdev_rt_sq : ℚ := 0
  avg_lt : ℚ := 0
  avg_ct : ℚ := 0
  errors : List ErrItem := []
  rt : List (ℚ × ℕ) := []
  rc : List (String × ℕ) := []
  perc : List (ℚ × ℚ) := []
  concurrencies : List (CKey × ℕ) := []
deriving DecidableEq

/-- `KPISet.__init__(perc_levels)`: zero scalars, empty vectors. -/
def KPISet.init (perc_levels : List ℚ) : KPISet :=
  { perc_levels := perc_levels }

/-- The derived standard deviation as Python reads it:
`math.sqrt(sqr_diffs / len(cnts))`. -/
noncomputable def KPISet.stdev_rt (k : KPISet) : ℝ :=
  Real.sqrt (k.stdev_rt_sq : ℝ)

/-- A raw sample as consumed by `KPISet.add_sample`:
`cnc, r_time, con_time, latency, r_code, error, trname`.  `con_time`,
`r_code` and `error` may be `None` in Python. -/
structure Sample where
  cnc : ℕ
  r_time : ℚ
  con_time : Option ℚ
  latency : ℚ
  r_code : Option String
  error : Option String
  trname : String
deriving DecidableEq

/-- `KPISet.inc_list(values, ('msg', msg), value)`: bump the first entry whose
`msg` matches (adding `cnt` and the `urls` counters), else append `value`.
The selector field is always `'msg'` at both call sites. -/
def incList (values : List ErrItem) (msg : String) (value : ErrItem) : List ErrItem :=
  match values with
  | [] => [value]
  | item :: rest =>
    if item.msg = msg then
      { item with cnt := item.cnt + value.cnt, urls := counterAdd item.urls value.urls } :: rest
    else
      item :: incList rest msg value

/-- `KPISet.add_sample(sample)`, line by line: bump `SAMPLE_COUNT`; record
concurrency under the thread name when truthy; when a response code is
present bump its histogram bucket and accumulate the time sums (`con_time`
only when truthy); classify as failure (bumping the error list) or success;
always bump the response-time histogram bucket. -/
def KPISet.add_sample (k : KPISet) (s : Sample) : KPISet :=
  let k := { k with throughput := k.throughput + 1 }
  let k := if s.cnc ≠ 0 then
      { k with concurrencies := assocSet k.concurrencies (CKey.thread s.trname) s.cnc }
    else k
  let k := match s.r_code with
    | none => k
    | some code =>
      let k := { k with rc := counterIncr k.rc code 1 }
      let k := match s.con_time with
        | some ct => if ct ≠ 0 then { k with sum_cn := k.sum_cn + ct } else k
        | none => k
      { k with sum_lt := k.sum_lt + s.latency, sum_rt := k.sum_rt + s.r_time }
  let k := match s.error with
    | some e =>
      { k with fail := k.fail + 1,
               errors := incList k.errors e (errorItemSkel e s.r_code 1 0 []) }
    | none => { k with succ := k.succ + 1 }
  { k with rt := counterIncr k.rt s.r_time 1 }

/-- The inner `while` of `KPISet.__perc_and_stdev`: starting at the current
histogram position (head of `l`, with `cum` the cumulative count up to and
including it), advance while `curr_pos <= percentile_pos`, accumulating each
passed entry's `count * (value - avg)**2` into `sq`.  Python indexes
`cnts[curr_cnts_pos]` after the increment, which raises `IndexError` when the
scan runs past the last entry — embedded as `none`. -/
def percScan (avg pos : ℚ) : List (ℚ × ℕ) → ℕ → ℚ → Option (List (ℚ × ℕ) × ℕ × ℚ)
  | [], cum, sq => some ([], cum, sq)
  | (v, c) :: rest, cum, sq =>
    if (cum : ℚ) ≤ pos then
      match rest with
      | [] => none
      | (_, c2) :: _ => percScan avg pos rest (cum + c2) (sq + (c : ℚ) * (v - avg) ^ 2)
    else
      some ((v, c) :: rest, cum, sq)

/-- The `for percentile in sorted(percentiles_to_calc)` loop of
`KPISet.__perc_and_stdev`: for `p < 100` scan forward and emit the value at
the stopping position (`none` if the scan would index out of range); for
`p >= 100` (i.e. `p == 100` given the assert) emit `cnts[-1][0]`, passed in
as `lastVal`. -/
def percLoop (avg num lastVal : ℚ) :
    List ℚ → List (ℚ × ℕ) → ℕ → ℚ → Option (List (ℚ × ℚ) × List (ℚ × ℕ) × ℕ × ℚ)
  | [], l, cum, sq => some ([], l, cum, sq)
  | p :: ps, l, cum, sq =>
    if p < 100 then
      match percScan avg (p / 100 * num) l cum sq with
      | none => none
      | some (l', cum', sq') =>
        match l' with
        | [] => none
        | (v, _) :: _ =>
          match percLoop avg num lastVal ps l' cum' sq' with
          | none => none
          | some (out, l'', cum'', sq'') => some ((p, v) :: out, l'', cum'', sq'')
    else
      match percLoop avg num lastVal ps l cum sq with
      | none => none
      | some (out, l'', cum'', sq'') => some ((p, lastVal) :: out, l'', cum'', sq'')

/-- Total count mass of a histogram fragment, `sum(cnts_dict.values())`. -/
def cntSum (l : List (ℚ × ℕ)) : ℕ := (l.map Prod.snd).sum

/-- Squared-deviation mass of a histogram fragment for a given mean:
the total of `count * (value - avg)**2` over its entries. -/
def sqSum (avg : ℚ) (l : List (ℚ × ℕ)) : ℚ :=
  (l.map (fun vc => (vc.2 : ℚ) * (vc.1 - avg) ^ 2)).sum

/-- `sorted(cnts_dict.items())`: histogram entries in ascending order of
value (dict keys are distinct, so sorting by key agrees with Python's tuple
order). -/
def sortedCnts (cnts_dict : List (ℚ × ℕ)) : List (ℚ × ℕ) :=
  List.insertionSort (fun a b : ℚ × ℕ => a.1 ≤ b.1) cnts_dict

/-- `KPISet.__perc_and_stdev(cnts_dict, percentiles_to_calc, avg)`.  The
result's second component is the exact radicand `sqr_diffs / len(cnts)`;
Python returns its `math.sqrt`.  `none` embeds the `assert` failure (a level
outside `[0, 100]`) and the unreachable-in-normal-flow `IndexError`s. -/
def percAndStdev (cnts_dict : List (ℚ × ℕ)) (percentiles_to_calc : List ℚ) (avg : ℚ) :
    Option (List (ℚ × ℚ) × ℚ) :=
  if percentiles_to_calc.any (fun p => ¬ (0 ≤ p ∧ p ≤ 100)) then none
  else if cnts_dict = [] then some ([], 0)
  else
    let num : ℚ := (cntSum cnts_dict : ℕ)
    let cnts := sortedCnts cnts_dict
    match cnts with
    | [] => none
    | (v0, c0) :: rest =>
      let lastVal := (((v0, c0) :: rest).getLastD (v0, c0)).1
      match percLoop avg num lastVal
          (List.insertionSort (fun a b : ℚ => a ≤ b) percentiles_to_calc)
          ((v0, c0) :: rest) c0 0 with
      | none => none
      | some (out, lrest, _, sq) =>
        let sqTot := sq + sqSum avg lrest
        some (out, sqTot / (cnts.length : ℚ))

/-- The first stage of `KPISet.recalculate()`: when `SAMPLE_COUNT` is
truthy, derive the averages by dividing each running sum by it. -/
def KPISet.recalcAvgs (k : KPISet) : KPISet :=
  if k.throughput ≠ 0 then
    { k with avg_ct := k.sum_cn / (k.throughput : ℚ),
             avg_lt := k.sum_lt / (k.throughput : ℚ),
             avg_rt := k.sum_rt / (k.throughput : ℚ) }
  else k

/-- The second stage of `KPISet.recalculate()`: when `_concurrencies` is
non-empty, derive `CONCURRENCY` as the sum of the per-source values. -/
def KPISet.recalcConc (k : KPISet) : KPISet :=
  if k.concurrencies ≠ [] then
    { k with concurrency := (k.concurrencies.map Prod.snd).sum }
  else k

/-- `KPISet.recalculate()`: derive the averages when `SAMPLE_COUNT` is
truthy, the concurrency sum when `_concurrencies` is non-empty, then the
percentiles and standard deviation from the histogram (with the
just-updated average).  `none` where `__perc_and_stdev` raises. -/
def KPISet.recalculate (k : KPISet) : Option KPISet :=
  match percAndStdev k.recalcAvgs.recalcConc.rt k.recalcAvgs.recalcConc.perc_levels
      k.recalcAvgs.recalcConc.avg_rt with
  | none => none
  | some (out, variance) =>
    some { k.recalcAvgs.recalcConc with
           perc := out.foldl (fun m lv => assocSet m lv.1 lv.2) k.recalcAvgs.recalcConc.perc,
           stdev_rt_sq := variance }

/-- `KPISet.merge_kpis(src, sid)`: recalculate `src` first (its derived
`CONCURRENCY` is read below), then add all running sums and counts, record
`src`'s concurrency under the source id, add both histograms
(`Counter.update`) and fold `src`'s error list in by message.  `none` where
`src.recalculate()` raises. -/
def KPISet.merge_kpis (self src : KPISet) (sid : Option ℕ) : Option KPISet :=
  match src.recalculate with
  | none => none
  | some src' =>
    some { self with
      sum_cn := self.sum_cn + src'.sum_cn,
      sum_lt := self.sum_lt + src'.sum_lt,
      sum_rt := self.sum_rt + src'.sum_rt,
      throughput := self.throughput + src'.throughput,
      succ := self.succ + src'.succ,
      fail := self.fail + src'.fail,
      concurrencies := assocSet self.concurrencies (CKey.source sid) src'.concurrency,
      rt := counterUpdate self.rt src'.rt,
      rc := counterUpdate self.rc src'.rc,
      errors := src'.errors.foldl (fun es item => incList es item.msg item) self.errors }

/-- The `DataPoint` container (`bzt/modules/aggregator.py`): a timestamped
bundle of per-label `KPISet`s with a current and a cumulative view plus the
list of merged-in subresults.  Recursive through `subresults`, hence an
inductive type; field projections follow. -/
inductive DataPoint where
  | mk (perc_levels : List ℚ) (source_id : Option ℕ) (ts : ℤ)
       (cumulative : List (String × KPISet)) (current : List (String × KPISet))
       (subresults : List DataPoint)

def DataPoint.perc_levels : DataPoint → List ℚ
  | .mk pl _ _ _ _ _ => pl

def DataPoint.source_id : DataPoint → Option ℕ
  | .mk _ sid _ _ _ _ => sid

def DataPoint.ts : DataPoint → ℤ
  | .mk _ _ t _ _ _ => t

def DataPoint.cumulative : DataPoint → List (String × KPISet)
  | .mk _ _ _ cum _ _ => cum

def DataPoint.current : DataPoint → List (String × KPISet)
  | .mk _ _ _ _ cur _ => cur

def DataPoint.subresults : DataPoint → List DataPoint
  | .mk _ _ _ _ _ sub => sub

/-- `DataPoint.__init__(ts, perc_levels)`: no source id, empty maps. -/
def DataPoint.init (ts : ℤ) (perc_levels : List ℚ) : DataPoint :=
  .mk perc_levels none ts [] [] []

/-- `DataPoint.__merge_kpis(src, dst, sid)`: for every label of `src`,
find-or-create the label's `KPISet` in `dst` (fresh `KPISet(perc_levels)`
when absent) and merge into it, tagging concurrency with `sid`.  The
`KPISet.from_dict` branch is dead here: values are always `KPISet`s in this
embedding.  Also reused for `ResultsProvider.__merge_to_cumulative`, which
performs the identical find-or-create merge with `sid = None`. -/
def mergeKpisMap (levels : List ℚ) (sid : Option ℕ) :
    List (String × KPISet) → List (String × KPISet) → Option (List (String × KPISet))
  | [], dst => some dst
  | (label, val) :: rest, dst =>
    let (dest, dst1) := findOrCreate dst label (KPISet.init levels)
    match dest.merge_kpis val sid with
    | none => none
    | some dest' => mergeKpisMap levels sid rest (assocSet dst1 label dest')

/-- `KPISet.recalculate()` applied to every value of a label map, as done by
`DataPoint.recalculate` over `current` and `cumulative`. -/
def recalcMap : List (String × KPISet) → Option (List (String × KPISet))
  | [] => some []
  | (label, k) :: rest =>
    match k.recalculate with
    | none => none
    | some k' =>
      match recalcMap rest with
      | none => none
      | some rest' => some ((label, k') :: rest')

/-- `DataPoint.recalculate()`: recalculate every `KPISet` in `current` and in
`cumulative`. -/
def DataPoint.recalcAll (p : DataPoint) : Option DataPoint :=
  match recalcMap p.current with
  | none => none
  | some cur' =>
    match recalcMap p.cumulative with
    | none => none
    | some cum' => some (.mk p.perc_levels p.source_id p.ts cum' cur' p.subresults)

/-- `DataPoint.merge_point(src)`: raise (`none`) when timestamps differ —
before any mutation; otherwise append `src` to `SUBRESULTS`, merge `src`'s
`current` and `cumulative` label-wise into self (tagged with
`src[SOURCE_ID]`), then recalculate everything. -/
def DataPoint.merge_point (self src : DataPoint) : Option DataPoint :=
  if self.ts ≠ src.ts then none
  else
    let withSub : DataPoint :=
      .mk self.perc_levels self.source_id self.ts self.cumulative self.current
        (self.subresults ++ [src])
    match mergeKpisMap self.perc_levels src.source_id src.current withSub.current with
    | none => none
    | some cur' =>
      match mergeKpisMap self.perc_levels src.source_id src.cumulative withSub.cumulative with
      | none => none
      | some cum' =>
        DataPoint.recalcAll (.mk self.perc_levels self.source_id self.ts cum' cur'
          withSub.subresults)

/-- Python `\w` on the ASCII labels at hand: letters, digits, underscore. -/
def isWordChar (c : Char) : Bool := c.isAlphanum || c = '_'

/-- The character class `[0-9a-fA-F]`. -/
def isHexChar (c : Char) : Bool :=
  c.isDigit || ('a' ≤ c && c ≤ 'f') || ('A' ≤ c && c ≤ 'F')

/-- The word-boundary `\b` immediately before a word character: satisfied at
the start of the string or after a non-word character. -/
def boundaryBefore (prev : Option Char) : Bool :=
  match prev with
  | none => true
  | some c => ¬ isWordChar c

/-- The word-boundary `\b` immediately after a word character: satisfied at
the end of the string or before a non-word character. -/
def boundaryAfter : List Char → Bool
  | [] => true
  | c :: _ => ¬ isWordChar c

/-- Python's `re.sub` scan for the patterns at hand: at each position try the
matcher (which is given the previous character, for `\b`); on a match of
`n+1` characters emit the replacement and resume after the match, else copy
one character.  The patterns used here cannot match the empty string, so a
`some 0` answer is treated as no match.  The `fuel` argument only bounds the
recursion structurally; every step consumes at least one character, so with
`fuel = length` (as supplied by `reSub`) the `0` case is unreachable. -/
def reSubFuel (m : Option Char → List Char → Option ℕ) (repl : List Char) :
    ℕ → Option Char → List Char → List Char
  | _, _, [] => []
  | 0, _, s => s
  | fuel + 1, prev, c :: cs =>
    match m prev (c :: cs) with
    | some (n + 1) =>
      repl ++ reSubFuel m repl fuel (some ((c :: cs).getD n c)) ((c :: cs).drop (n + 1))
    | _ => c :: reSubFuel m repl fuel (some c) cs

def reSub (m : Option Char → List Char → Option ℕ) (repl : List Char)
    (prev : Option Char) (s : List Char) : List Char :=
  reSubFuel m repl s.length prev s

/-- Consume exactly `n` characters of class `[0-9a-fA-F]`. -/
def chkHex (n : ℕ) (s : List Char) : Option (List Char) :=
  if (s.take n).length = n && (s.take n).all isHexChar then some (s.drop n) else none

/-- Consume a literal `-`. -/
def chkDash : List Char → Option (List Char)
  | '-' :: r => some r
  | _ => none

/-- Matcher for the first generalization pattern,
`\b[0-9a-fA-F]{8}-[0-9a-fA-F]{4}-[0-9a-fA-F]{4}-[0-9a-fA-F]{4}-[0-9a-fA-F]{12}\b`:
all counts are fixed, so the regex matches exactly a 8-4-4-4-12 hex shape
between word boundaries (36 characters). -/
def uuidMatch (prev : Option Char) (s : List Char) : Option ℕ :=
  if ¬ boundaryBefore prev then none
  else
    match chkHex 8 s with
    | none => none
    | some s1 =>
      match chkDash s1 with
      | none => none
      | some s2 =>
        match chkHex 4 s2 with
        | none => none
        | some s3 =>
          match chkDash s3 with
          | none => none
          | some s4 =>
            match chkHex 4 s4 with
            | none => none
            | some s5 =>
              match chkDash s5 with
              | none => none
              | some s6 =>
                match chkHex 4 s6 with
                | none => none
                | some s7 =>
                  match chkDash s7 with
                  | none => none
                  | some s8 =>
                    match chkHex 12 s8 with
                    | none => none
                    | some s9 => if boundaryAfter s9 then some 36 else none

/-- Matcher for a `\b C{2,} \b` pattern with character class `cls ⊆ \w`
(the second and third generalization patterns).  The greedy run takes the
maximal `cls` prefix; backtracking to a shorter run always fails, because the
character after a shorter run is a `cls` character, hence a word character,
so the closing `\b` cannot hold.  The pattern therefore matches exactly when
the maximal `cls` prefix has length at least 2 and is followed by a non-word
character or the end of the string. -/
def classRunMatch (cls : Char → Bool) (prev : Option Char) (s : List Char) : Option ℕ :=
  if ¬ boundaryBefore prev then none
  else
    let run := s.takeWhile cls
    if 2 ≤ run.length && boundaryAfter (s.drop run.length) then some run.length else none

/-- `ResultsReader.__generalize_label`: apply the three
`label_generalize_regexps` substitutions in order — UUID shapes to `"U"`,
hex runs of two or more characters to `"U"`, digit runs of two or more
characters to `"N"`. -/
def generalizeLabel (label : String) : String :=
  let l1 := reSub uuidMatch ['U'] none label.data
  let l2 := reSub (classRunMatch isHexChar) ['U'] none l1
  let l3 := reSub (classRunMatch Char.isDigit) ['N'] none l2
  ⟨l3⟩

/-- A raw result tuple as produced by a reader's `_read`:
`t_stamp, label, conc, r_time, con_time, latency, r_code, error, trname`. -/
structure RawResult where
  t_stamp : ℤ
  label : String
  conc : ℕ
  r_time : ℚ
  con_time : Option ℚ
  latency : ℚ
  r_code : Option String
  error : Option String
  trname : String
deriving DecidableEq

/-- A buffered sample of `ResultsReader`, the 8-tuple
`(label, conc, r_time, con_time, latency, r_code, error, trname)` stored by
`__process_readers`.  (`__aggreagate_current` unpacks positions 2 and 3
under swapped names and `add_sample` swaps them back, so the net field
correspondence is the natural one.) -/
structure BufSample where
  label : String
  conc : ℕ
  r_time : ℚ
  con_time : Option ℚ
  latency : ℚ
  r_code : Option String
  error : Option String
  trname : String
deriving DecidableEq

def RawResult.toBufSample (r : RawResult) : BufSample :=
  { label := r.label, conc := r.conc, r_time := r.r_time, con_time := r.con_time,
    latency := r.latency, r_code := r.r_code, error := r.error, trname := r.trname }

/-- The `add_sample` argument built by `__aggreagate_current`:
`(r_time, concur, con_time, latency, r_code, error, trname)` where, after the
two name swaps of the source cancel, `cnc` is the buffered `conc` and
`r_time` the buffered `r_time`. -/
def BufSample.toSample (b : BufSample) : Sample :=
  { cnc := b.conc, r_time := b.r_time, con_time := b.con_time, latency := b.latency,
    r_code := b.r_code, error := b.error, trname := b.trname }

/-- Mutable state of a `ResultsReader`: the timestamp→samples buffer, the
watermark `min_timestamp`, the window width `buffer_len` and configuration.
`source_id` models `id(self)`; `warnings` records each
`log.warning("Putting sample %s into %s", t, min)` as the pair `(t, min)`. -/
structure RState where
  generalize_labels : Bool := true
  ignored_labels : List String := []
  buffer : List (ℤ × List BufSample) := []
  buffer_len : ℤ := 2
  min_timestamp : ℤ := 0
  track_percentiles : List ℚ := []
  source_id : ℕ := 0
  warnings : List (ℤ × ℤ) := []
deriving DecidableEq

/-- Append under a timestamp key, creating the empty list first when the key
is absent (`if t_stamp not in self.buffer: self.buffer[t_stamp] = []` then
`append`; the consolidator's `self.buffer.get(tstamp, []).append(data)` has
the same find-or-create semantics). -/
def bufAppend [DecidableEq κ] (m : List (κ × List β)) (t : κ) (x : β) : List (κ × List β) :=
  let (l, m1) := findOrCreate m t []
  assocSet m1 t (l ++ [x])

/-- `ResultsReader.__process_readers`, with the drained upstream results
passed in as `incoming`: drop ignored labels, clamp timestamps below the
watermark up to it (warning), and append each sample to its bucket.  The
`result is None` early break and the non-tuple `ValueError` concern the
upstream protocol and are outside this embedding — `incoming` holds the
well-formed tuples actually drained. -/
def processReaders (st : RState) (incoming : List RawResult) : RState :=
  incoming.foldl (fun st r =>
    if r.label ∈ st.ignored_labels then st
    else
      let clamped := r.t_stamp < st.min_timestamp
      let t := if clamped then st.min_timestamp else r.t_stamp
      { st with
        warnings := if clamped then st.warnings ++ [(r.t_stamp, st.min_timestamp)]
                    else st.warnings,
        buffer := bufAppend st.buffer t r.toBufSample }) st

/-- The overall-label fold of `__aggreagate_current`:
`overall = KPISet(track_percentiles)` then `overall.merge_kpis(v, sid)` for
every per-label `KPISet` in order. -/
def mergeAll (sid : Option ℕ) : KPISet → List KPISet → Option KPISet
  | acc, [] => some acc
  | acc, k :: ks =>
    match acc.merge_kpis k sid with
    | none => none
    | some acc' => mergeAll sid acc' ks

/-- The per-sample body of the `__aggreagate_current` loop: normalize the
label — an empty label becomes the `'[empty]'` placeholder, then optionally
`__generalize_label` — and feed the sample into that label's (find-or-create)
`KPISet` via `add_sample`. -/
def aggStep (levels : List ℚ) (glabels : Bool) (cur : List (String × KPISet))
    (b : BufSample) : List (String × KPISet) :=
  let label := if b.label = "" then "[empty]" else b.label
  let label := if glabels then generalizeLabel label else label
  let (kset, cur1) := findOrCreate cur label (KPISet.init levels)
  assocSet cur1 label (kset.add_sample b.toSample)

/-- `ResultsReader.__aggreagate_current(datapoint, samples)`: fold every
sample into its (normalized) label's `KPISet` and attach the merge of all
per-label sets under the overall `''` label. -/
def aggregateCurrent (levels : List ℚ) (glabels : Bool) (sid : Option ℕ)
    (samples : List BufSample) : Option (List (String × KPISet)) :=
  let current := samples.foldl (aggStep levels glabels) []
  match mergeAll sid (KPISet.init levels) (current.map Prod.snd) with
  | none => none
  | some overall => some (assocSet current "" overall)

/-- The emission `while` of `ResultsReader._calculate_datapoints` over the
sorted key list: emit while `final_pass or (timestamps[-1] >=
timestamps[0] + buffer_len)`, popping the oldest bucket, advancing the
watermark to `timestamp + 1`, aggregating the bucket's samples, and breaking
once the key list is exhausted.  The `[]` case is unreachable from the entry
point (the caller returns early on an empty buffer, and the in-loop `break`
fires before a re-check on an empty list). -/
def rCalcLoop (final : Bool) (blen : ℤ) (levels : List ℚ) (glabels : Bool) (sid : ℕ) :
    List ℤ → List (ℤ × List BufSample) → ℤ →
    Option (List DataPoint × List (ℤ × List BufSample) × ℤ)
  | [], buf, mts => some ([], buf, mts)
  | t :: rest, buf, mts =>
    if final ∨ ((t :: rest).getLastD t ≥ t + blen) then
      let samples := lookupD buf t []
      let buf' := buf.filter (fun kv => kv.1 ≠ t)
      match aggregateCurrent levels glabels (some sid) samples with
      | none => none
      | some cur =>
        let dp : DataPoint := .mk levels (some sid) t [] cur []
        match rest with
        | [] => some ([dp], buf', t + 1)
        | _ :: _ =>
          match rCalcLoop final blen levels glabels sid rest buf' (t + 1) with
          | none => none
          | some (dps, buf'', mts'') => some (dp :: dps, buf'', mts'')
    else some ([], buf, mts)

/-- `ResultsReader._calculate_datapoints(final_pass)` with the drained
upstream tuples passed in: process the readers, return nothing on an empty
buffer, else run the emission loop over the sorted timestamps. -/
def RState.calculateDatapoints (st : RState) (final : Bool) (incoming : List RawResult) :
    Option (List DataPoint × RState) :=
  let st := processReaders st incoming
  if st.buffer = [] then some ([], st)
  else
    let tss := List.insertionSort (fun a b : ℤ => a ≤ b) (st.buffer.map Prod.fst)
    match rCalcLoop final st.buffer_len st.track_percentiles st.generalize_labels
        st.source_id tss st.buffer st.min_timestamp with
    | none => none
    | some (dps, buf', mts') =>
      some (dps, { st with buffer := buf', min_timestamp := mts' })

/-- The `ResultsProvider.datapoints` wrapper around the produced points: for
each point, merge its `current` into the provider's long-lived cumulative
(`__merge_to_cumulative`, a find-or-create merge with no source id), attach
a deep copy of the cumulative (deep copies are the values themselves in this
pure embedding) and recalculate. -/
def providerDatapoints (levels : List ℚ) :
    List (String × KPISet) → List DataPoint → Option (List DataPoint × List (String × KPISet))
  | cums, [] => some ([], cums)
  | cums, p :: rest =>
    match mergeKpisMap levels none p.current cums with
    | none => none
    | some cums' =>
      let p1 : DataPoint := .mk p.perc_levels p.source_id p.ts cums' p.current p.subresults
      match p1.recalcAll with
      | none => none
      | some p2 =>
        match providerDatapoints levels cums' rest with
        | none => none
        | some (out, cumsF) => some (p2 :: out, cumsF)

/-- Mutable state of a `ConsolidatingAggregator`: the timestamp→DataPoints
buffer, the window width, and the `ResultsProvider` long-lived cumulative. -/
structure CState where
  cumulative : List (String × KPISet) := []
  track_percentiles : List ℚ := []
  buffer : List (ℤ × List DataPoint) := []
  buffer_len : ℤ := 2
  warnings : List (ℤ × ℤ) := []

/-- `ConsolidatingAggregator._process_underlings`, with the points pulled
from all underlings passed in as `incoming`: clamp a timestamp below the
minimum buffered one up to that minimum (warning, rewriting the point's own
timestamp too), then append the point to its bucket. -/
def processUnderlings (st : CState) (incoming : List DataPoint) : CState :=
  incoming.foldl (fun st dp =>
    let tstamp := dp.ts
    if ¬ st.buffer.isEmpty then
      let mints := ((st.buffer.map Prod.fst).min?).getD tstamp
      if tstamp < mints then
        let dp' : DataPoint :=
          .mk dp.perc_levels dp.source_id mints dp.cumulative dp.current dp.subresults
        { st with warnings := st.warnings ++ [(tstamp, mints)],
                  buffer := bufAppend st.buffer mints dp' }
      else { st with buffer := bufAppend st.buffer tstamp dp }
    else { st with buffer := bufAppend st.buffer tstamp dp }) st

/-- The emission `while` of `ConsolidatingAggregator._calculate_datapoints`:
`while timestamps and (final_pass or (timestamps[-1] >= timestamps[0] +
buffer_len))` pop the oldest bucket, fold its points into a fresh
`DataPoint` via `merge_point`, recalculate and emit. -/
def cCalcLoop (final : Bool) (blen : ℤ) (levels : List ℚ) :
    List ℤ → List (ℤ × List DataPoint) →
    Option (List DataPoint × List (ℤ × List DataPoint))
  | [], buf => some ([], buf)
  | t :: rest, buf =>
    if final ∨ ((t :: rest).getLastD t ≥ t + blen) then
      let pts := lookupD buf t []
      let buf' := buf.filter (fun kv => kv.1 ≠ t)
      match pts.foldlM (fun acc sub => acc.merge_point sub) (DataPoint.init t levels) with
      | none => none
      | some point =>
        match point.recalcAll with
        | none => none
        | some point' =>
          match cCalcLoop final blen levels rest buf' with
          | none => none
          | some (dps, buf'') => some (point' :: dps, buf'')
    else some ([], buf)

/-- `ConsolidatingAggregator._calculate_datapoints` composed with the
`ResultsProvider.datapoints` wrapper (as driven by `check`/`post_process`):
bucket the incoming points, emit eligible buckets oldest-first, then merge
each emitted point into the long-lived cumulative, attach its deep copy and
recalculate. -/
def CState.datapoints (st : CState) (final : Bool) (incoming : List DataPoint) :
    Option (List DataPoint × CState) :=
  let st1 := processUnderlings st incoming
  if st1.buffer.isEmpty then some ([], st1)
  else
    let tss := List.insertionSort (fun a b : ℤ => a ≤ b) (st1.buffer.map Prod.fst)
    match cCalcLoop final st1.buffer_len st1.track_percentiles tss st1.buffer with
    | none => none
    | some (dps, buf') =>
      match providerDatapoints st1.track_percentiles st1.cumulative dps with
      | none => none
      | some (out, cum') =>
        some (out, { st1 with buffer := buf', cumulative := cum' })

/-- A parsed CSV row of a JMeter KPI JTL file, with the fields read by
`JTLReader._read` (`bzt/modules/jmeter.py`).  `connect` is `none` when the
`Connect` column is absent from the file. -/
structure JTLRow where
  label : String
  grpThreads : ℕ
  allThreads : ℕ
  threadName : String
  elapsed : ℤ
  latencyMs : ℤ
  connect : Option ℤ
  responseCode : String
  success : String
  responseMessage : String
  timeStamp : ℕ
deriving DecidableEq

/-- Index of the last occurrence of a character, Python's `str.rfind`
(returning `none` for `-1`). -/
def lastIdxOf (c : Char) : List Char → Option ℕ
  | [] => none
  | a :: rest =>
    match lastIdxOf c rest with
    | some i => some (i + 1)
    | none => if a = c then some 0 else none

/-- `row["threadName"][:row["threadName"].rfind(' ')]`: everything before the
last space; when there is no space, `rfind` returns `-1` and the Python
slice `[:-1]` drops the last character. -/
def takeBeforeLastSpace (s : String) : String :=
  match lastIdxOf ' ' s.data with
  | some i => ⟨s.data.take i⟩
  | none => ⟨s.data.take (s.data.length - 1)⟩

/-- One row of `JTLReader._read`: thread bookkeeping per `is_distributed`,
millisecond integers scaled to seconds, the `Connect`-vs-`Latency`
compensation (`if cnn < ltc: ltc -= cnn`), `...Exception` response codes
collapsed to their last dotted component, failures mapped to the response
message, and the epoch-milliseconds timestamp truncated to seconds. -/
def readRow (is_distributed : Bool) (row : JTLRow) : RawResult :=
  let concur := if is_distributed then row.grpThreads else row.allThreads
  let trname := if is_distributed then takeBeforeLastSpace row.threadName else ""
  let rtm : ℚ := (row.elapsed : ℚ) / 1000
  let ltc : ℚ := (row.latencyMs : ℚ) / 1000
  let (cnn, ltc) : Option ℚ × ℚ :=
    match row.connect with
    | some c =>
      let cq : ℚ := (c : ℚ) / 1000
      if cq < ltc then (some cq, ltc - cq) else (some cq, ltc)
    | none => (none, ltc)
  let rcd := if row.responseCode.endsWith "Exception" then
      (row.responseCode.splitOn ".").getLastD row.responseCode
    else row.responseCode
  let error := if row.success ≠ "true" then some row.responseMessage else none
  let tstmp : ℤ := (row.timeStamp / 1000 : ℕ)
  { t_stamp := tstmp, label := row.label, conc := concur, r_time := rtm,
    con_time := cnn, latency := ltc, r_code := some rcd, error := error,
    trname := trname }

/-! ### Specification-side definitions used by the claims -/

/-- Claim-side percentile rule as the specification words it: scanning the
ascending histogram with running cumulative frequency starting at `acc`,
the first value whose cumulative frequency (counts up to and including it)
reaches or exceeds `bound`. -/
def firstCumReaching (bound : ℚ) : List (ℚ × ℕ) → ℕ → Option ℚ
  | [], _ => none
  | (v, c) :: rest, acc =>
    if bound ≤ ((acc + c : ℕ) : ℚ) then some v else firstCumReaching bound rest (acc + c)

/-- Same scan with a strict comparison: the first value whose cumulative
frequency strictly exceeds `bound` — the rule the code's
`while curr_pos <= percentile_pos` loop actually implements. -/
def firstCumExceeding (bound : ℚ) : List (ℚ × ℕ) → ℕ → Option ℚ
  | [], _ => none
  | (v, c) :: rest, acc =>
    if bound < ((acc + c : ℕ) : ℚ) then some v else firstCumExceeding bound rest (acc + c)

/-- Well-formedness of a `KPISet` as produced by the engine: configured
percentile levels within `[0, 100]` (the spec's configuration contract) and
strictly positive response-time histogram counts (as built by
`add_sample`/`merge_kpis`). -/
def WFk (k : KPISet) : Prop :=
  (∀ p ∈ k.perc_levels, 0 ≤ p ∧ p ≤ 100) ∧ (∀ e ∈ k.rt, 0 < e.2)

/-- Well-formedness of a label map: every stored `KPISet` is well-formed. -/
def WFmap (m : List (String × KPISet)) : Prop := ∀ e ∈ m, WFk e.2

/-- A `KPISet` built by feeding a list of samples into a fresh
`KPISet(perc_levels)` via `add_sample`. -/
def buildKPI (levels : List ℚ) (S : List Sample) : KPISet :=
  S.foldl KPISet.add_sample (KPISet.init levels)

/-- The states a `KPISet` can reach: start empty, then any sequence of
`add_sample` and (successful) `merge_kpis` with another reachable set. -/
inductive Reaches : KPISet → Prop where
  | empty (levels : List ℚ) : Reaches (KPISet.init levels)
  | add (k : KPISet) (s : Sample) : Reaches k → Reaches (k.add_sample s)
  | merge (k src k' : KPISet) (sid : Option ℕ) :
      Reaches k → Reaches src → k.merge_kpis src sid = some k' → Reaches k'

/-- The sample count recorded under a label of a label map (zero when the
label is absent). -/
def kpiCount (m : List (String × KPISet)) (label : String) : ℕ :=
  (lookupD m label (KPISet.init [])).throughput

/-- Number of samples of `S` carrying response code `code`. -/
def countRC (S : List Sample) (code : String) : ℕ :=
  (S.filter (fun s => s.r_code = some code)).length

/-- Total response time over the samples of `S` that carry a response code
(the only ones whose times `add_sample` accumulates). -/
def specSumRt (S : List Sample) : ℚ :=
  ((S.filter (fun s => s.r_code ≠ none)).map Sample.r_time).sum

/-- A minimal raw result used by the concrete windowing scenarios. -/
def sampW (t : ℤ) : RawResult :=
  { t_stamp := t, label := "a", conc := 1, r_time := 2, con_time := none,
    latency := 1, r_code := some "200", error := none, trname := "th" }

/-- The initial reader state of the concrete windowing scenario:
`buffer_len = 2`, empty buffer, watermark 0. -/
def stW0 : RState := {}

/-- The reader state of the concrete windowing scenario after the samples at
timestamps 10, 10 and 11 have been buffered. -/
def stWA : RState :=
  { buffer := [(10, [(sampW 10).toBufSample, (sampW 10).toBufSample]),
               (11, [(sampW 11).toBufSample])] }

/-- The bucket timestamps the reader emission `while` pops from a given
(sorted) key list: keep popping while the final flag is set or the last
remaining key is at least `buffer_len` beyond the current head — the exact
loop guard `final_pass or (timestamps[-1] >= timestamps[0] + buffer_len)`. -/
def emitKeys (final : Bool) (blen : ℤ) : List ℤ → List ℤ
  | [] => []
  | t :: rest =>
    if final ∨ ((t :: rest).getLastD t ≥ t + blen) then t :: emitKeys final blen rest
    else []

instance : IsTotal (ℚ × ℕ) (fun a b : ℚ × ℕ => a.1 ≤ b.1) :=
  ⟨fun a b => le_total a.1 b.1⟩

instance : IsTrans (ℚ × ℕ) (fun a b : ℚ × ℕ => a.1 ≤ b.1) :=
  ⟨fun _ _ _ h h' => le_trans h h'⟩

/-! ### Association-list and counter lemmas -/

theorem lookupD_assocSet_self [DecidableEq α] (m : List (α × β)) (k : α) (v : β) (d : β) :
    lookupD (assocSet m k v) k d = v := by
  induction m with
  | nil => simp [assocSet, lookupD]
  | cons hd tl ih =>
    by_cases h : hd.1 = k
    · simp [assocSet, lookupD, h]
    · simpa [assocSet, lookupD, h] using ih

theorem lookupD_assocSet_ne [DecidableEq α] (m : List (α × β)) (k k' : α) (v : β) (d : β)
    (hne : k' ≠ k) : lookupD (assocSet m k v) k' d = lookupD m k' d := by
  induction m with
  | nil => simp [assocSet, lookupD, hne.symm]
  | cons hd tl ih =>
    by_cases h : hd.1 = k
    · subst h
      simp [assocSet, lookupD, hne.symm, fun hh : hd.1 = k' => hne (hh.symm)]
    · simp only [assocSet, if_neg h, lookupD]
      by_cases h' : hd.1 = k'
      · simp [h']
      · simpa [h'] using ih

theorem lookupD_of_not_mem [DecidableEq α] (m : List (α × β)) (k : α) (d : β)
    (h : k ∉ m.map Prod.fst) : lookupD m k d = d := by
  induction m with
  | nil => simp [lookupD]
  | cons hd tl ih =>
    simp only [List.map_cons, List.mem_cons] at h
    push_neg at h
    have h1 : ¬ hd.1 = k := fun hh => h.1 hh.symm
    simp only [lookupD, if_neg h1]
    exact ih h.2

theorem lookupD_counterIncr [DecidableEq α] (m : List (α × ℕ)) (k k' : α) (n : ℕ) :
    lookupD (counterIncr m k n) k' 0 =
      lookupD m k' 0 + (if k = k' then n else 0) := by
  unfold counterIncr
  by_cases h : k' = k
  · subst h
    simp [lookupD_assocSet_self]
  · rw [lookupD_assocSet_ne _ _ _ _ _ h, if_neg (fun hh : k = k' => h hh.symm)]
    omega

theorem keys_assocSet [DecidableEq α] (m : List (α × β)) (k : α) (v : β) :
    (assocSet m k v).map Prod.fst =
      (if k ∈ m.map Prod.fst then m.map Prod.fst else m.map Prod.fst ++ [k]) := by
  induction m with
  | nil => simp [assocSet]
  | cons hd tl ih =>
    by_cases h : hd.1 = k
    · subst h
      simp [assocSet]
    · have h2 : ¬ k = hd.1 := fun hh => h hh.symm
      simp only [assocSet, if_neg h, List.map_cons, ih, List.mem_cons]
      by_cases h' : k ∈ tl.map Prod.fst
      · simp [h', h2]
      · simp [h', h2]

theorem keys_counterIncr [DecidableEq α] (m : List (α × ℕ)) (k : α) (n : ℕ) :
    (counterIncr m k n).map Prod.fst =
      (if k ∈ m.map Prod.fst then m.map Prod.fst else m.map Prod.fst ++ [k]) := by
  unfold counterIncr
  exact keys_assocSet m k _

theorem nodup_keys_counterIncr [DecidableEq α] (m : List (α × ℕ)) (k : α) (n : ℕ)
    (h : (m.map Prod.fst).Nodup) : ((counterIncr m k n).map Prod.fst).Nodup := by
  rw [keys_counterIncr]
  by_cases hk : k ∈ m.map Prod.fst
  · simpa [hk] using h
  · simp only [if_neg hk]
    refine List.Nodup.append h (List.nodup_singleton k) ?_
    intro x hx hxk
    simp only [List.mem_singleton] at hxk
    exact hk (hxk ▸ hx)

theorem lookupD_counterUpdate [DecidableEq α] (a b : List (α × ℕ)) (k : α)
    (hnd : (b.map Prod.fst).Nodup) :
    lookupD (counterUpdate a b) k 0 = lookupD a k 0 + lookupD b k 0 := by
  induction b generalizing a with
  | nil => simp [counterUpdate, lookupD]
  | cons hd tl ih =>
    simp only [List.map_cons, List.nodup_cons] at hnd
    have step : counterUpdate a (hd :: tl) = counterUpdate (counterIncr a hd.1 hd.2) tl := by
      simp [counterUpdate]
    rw [step, ih _ hnd.2, lookupD_counterIncr]
    by_cases h : hd.1 = k
    · subst h
      have h0 : lookupD tl hd.1 0 = 0 := lookupD_of_not_mem _ _ _ hnd.1
      simp [lookupD, h0]
    · have h2 : ¬ k = hd.1 := fun hh => h hh.symm
      simp [lookupD, h, h2]

theorem mem_assocSet [DecidableEq α] (m : List (α × β)) (k : α) (v : β) (e : α × β)
    (h : e ∈ assocSet m k v) : e ∈ m ∨ e = (k, v) := by
  induction m with
  | nil => simpa [assocSet] using h
  | cons hd tl ih =>
    by_cases hk : hd.1 = k
    · simp only [assocSet, if_pos hk, List.mem_cons] at h
      rcases h with h | h
      · exact Or.inr h
      · exact Or.inl (List.mem_cons_of_mem _ h)
    · simp only [assocSet, if_neg hk, List.mem_cons] at h
      rcases h with h | h
      · exact Or.inl (h ▸ List.mem_cons_self _ _)
      · rcases ih h with h' | h'
        · exact Or.inl (List.mem_cons_of_mem _ h')
        · exact Or.inr h'

theorem counterIncr_pos [DecidableEq α] (m : List (α × ℕ)) (k : α) (n : ℕ)
    (hm : ∀ e ∈ m, 0 < e.2) (hn : 0 < n) : ∀ e ∈ counterIncr m k n, 0 < e.2 := by
  intro e he
  rcases mem_assocSet _ _ _ _ he with h | h
  · exact hm e h
  · subst h
    simp only
    omega

theorem counterUpdate_pos [DecidableEq α] (a b : List (α × ℕ))
    (ha : ∀ e ∈ a, 0 < e.2) (hb : ∀ e ∈ b, 0 < e.2) :
    ∀ e ∈ counterUpdate a b, 0 < e.2 := by
  induction b generalizing a with
  | nil => simpa [counterUpdate] using ha
  | cons hd tl ih =>
    have step : counterUpdate a (hd :: tl) = counterUpdate (counterIncr a hd.1 hd.2) tl := by
      simp [counterUpdate]
    rw [step]
    exact ih _ (counterIncr_pos a hd.1 hd.2 ha (hb hd (List.mem_cons_self _ _)))
      (fun e he => hb e (List.mem_cons_of_mem _ he))

theorem findOrCreate_fst [DecidableEq α] (m : List (α × β)) (k : α) (d : β) :
    (findOrCreate m k d).1 = lookupD m k d := by
  induction m with
  | nil => simp [findOrCreate, lookupD]
  | cons hd tl ih =>
    by_cases h : hd.1 = k
    · simp [findOrCreate, lookupD, h]
    · simpa [findOrCreate, lookupD, h] using ih

theorem lookupD_findOrCreate_self [DecidableEq α] (m : List (α × β)) (k : α) (d d' : β) :
    lookupD (findOrCreate m k d).2 k d' = lookupD m k d := by
  induction m with
  | nil => simp [findOrCreate, lookupD]
  | cons hd tl ih =>
    by_cases h : hd.1 = k
    · simp [findOrCreate, lookupD, h]
    · simpa [findOrCreate, lookupD, h] using ih

theorem lookupD_findOrCreate_ne [DecidableEq α] (m : List (α × β)) (k k' : α) (d d' : β)
    (hne : k' ≠ k) : lookupD (findOrCreate m k d).2 k' d' = lookupD m k' d' := by
  induction m with
  | nil => simp [findOrCreate, lookupD, hne.symm]
  | cons hd tl ih =>
    by_cases h : hd.1 = k
    · subst h
      simp [findOrCreate, lookupD, fun hh : hd.1 = k' => hne hh.symm]
    · simp only [findOrCreate, if_neg h, lookupD]
      by_cases h' : hd.1 = k'
      · simp [h']
      · simpa [h'] using ih

theorem mem_findOrCreate [DecidableEq α] (m : List (α × β)) (k : α) (d : β) (e : α × β)
    (h : e ∈ (findOrCreate m k d).2) : e ∈ m ∨ e = (k, d) := by
  induction m with
  | nil => simpa [findOrCreate] using h
  | cons hd tl ih =>
    by_cases hk : hd.1 = k
    · simp only [findOrCreate, if_pos hk] at h
      exact Or.inl h
    · simp only [findOrCreate, if_neg hk, List.mem_cons] at h
      rcases h with h | h
      · exact Or.inl (h ▸ List.mem_cons_self _ _)
      · rcases ih h with h' | h'
        · exact Or.inl (List.mem_cons_of_mem _ h')
        · exact Or.inr h'

/-! ### KPISet operation characterizations -/

theorem add_sample_eq (k : KPISet) (s : Sample) :
    k.add_sample s = { k with
      throughput := k.throughput + 1,
      concurrencies := if s.cnc ≠ 0 then assocSet k.concurrencies (CKey.thread s.trname) s.cnc
                       else k.concurrencies,
      rc := match s.r_code with | none => k.rc | some code => counterIncr k.rc code 1,
      sum_cn := match s.r_code, s.con_time with
        | some _, some ct => if ct ≠ 0 then k.sum_cn + ct else k.sum_cn
        | _, _ => k.sum_cn,
      sum_lt := match s.r_code with | none => k.sum_lt | some _ => k.sum_lt + s.latency,
      sum_rt := match s.r_code with | none => k.sum_rt | some _ => k.sum_rt + s.r_time,
      fail := match s.error with | some _ => k.fail + 1 | none => k.fail,
      succ := match s.error with | some _ => k.succ | none => k.succ + 1,
      errors := match s.error with
        | some e => incList k.errors e (errorItemSkel e s.r_code 1 0 [])
        | none => k.errors,
      rt := counterIncr k.rt s.r_time 1 } := by
  unfold KPISet.add_sample
  cases hrc : s.r_code <;> cases herr : s.error <;> cases hct : s.con_time <;>
    dsimp only <;> split_ifs <;> rfl

theorem recalcAvgs_fields (k : KPISet) :
    k.recalcAvgs.throughput = k.throughput ∧ k.recalcAvgs.succ = k.succ ∧
    k.recalcAvgs.fail = k.fail ∧ k.recalcAvgs.sum_rt = k.sum_rt ∧
    k.recalcAvgs.sum_lt = k.sum_lt ∧ k.recalcAvgs.sum_cn = k.sum_cn ∧
    k.recalcAvgs.rt = k.rt ∧ k.recalcAvgs.rc = k.rc ∧ k.recalcAvgs.errors = k.errors ∧
    k.recalcAvgs.perc_levels = k.perc_levels ∧ k.recalcAvgs.concurrencies = k.concurrencies := by
  unfold KPISet.recalcAvgs
  split_ifs <;> simp

theorem recalcConc_fields (k : KPISet) :
    k.recalcConc.throughput = k.throughput ∧ k.recalcConc.succ = k.succ ∧
    k.recalcConc.fail = k.fail ∧ k.recalcConc.sum_rt = k.sum_rt ∧
    k.recalcConc.sum_lt = k.sum_lt ∧ k.recalcConc.sum_cn = k.sum_cn ∧
    k.recalcConc.rt = k.rt ∧ k.recalcConc.rc = k.rc ∧ k.recalcConc.errors = k.errors ∧
    k.recalcConc.perc_levels = k.perc_levels ∧ k.recalcConc.concurrencies = k.concurrencies := by
  unfold KPISet.recalcConc
  split_ifs <;> simp

theorem recalculate_fields (k k' : KPISet) (h : k.recalculate = some k') :
    k'.throughput = k.throughput ∧ k'.succ = k.succ ∧ k'.fail = k.fail ∧
    k'.sum_rt = k.sum_rt ∧ k'.sum_lt = k.sum_lt ∧ k'.sum_cn = k.sum_cn ∧
    k'.rt = k.rt ∧ k'.rc = k.rc ∧ k'.errors = k.errors ∧
    k'.perc_levels = k.perc_levels ∧ k'.concurrencies = k.concurrencies := by
  unfold KPISet.recalculate at h
  obtain ⟨a1, a2, a3, a4, a5, a6, a7, a8, a9, a10, a11⟩ := recalcAvgs_fields k
  obtain ⟨b1, b2, b3, b4, b5, b6, b7, b8, b9, b10, b11⟩ := recalcConc_fields k.recalcAvgs
  cases hps : percAndStdev k.recalcAvgs.recalcConc.rt k.recalcAvgs.recalcConc.perc_levels
      k.recalcAvgs.recalcConc.avg_rt with
  | none => rw [hps] at h; exact absurd h (by simp)
  | some r =>
    obtain ⟨out, variance⟩ := r
    rw [hps] at h
    rw [Option.some.injEq] at h
    subst h
    simp_all

theorem merge_kpis_fields (self src m : KPISet) (sid : Option ℕ)
    (h : self.merge_kpis src sid = some m) :
    m.throughput = self.throughput + src.throughput ∧
    m.succ = self.succ + src.succ ∧ m.fail = self.fail + src.fail ∧
    m.sum_rt = self.sum_rt + src.sum_rt ∧ m.sum_lt = self.sum_lt + src.sum_lt ∧
    m.sum_cn = self.sum_cn + src.sum_cn ∧
    m.rt = counterUpdate self.rt src.rt ∧ m.rc = counterUpdate self.rc src.rc ∧
    m.perc_levels = self.perc_levels := by
  unfold KPISet.merge_kpis at h
  cases hrec : src.recalculate with
  | none => rw [hrec] at h; exact absurd h (by simp)
  | some src' =>
    rw [hrec] at h
    rw [Option.some.injEq] at h
    subst h
    obtain ⟨h1, h2, h3, h4, h5, h6, h7, h8, h9, h10, h11⟩ := recalculate_fields src src' hrec
    simp_all

theorem merge_kpis_isSome (self src : KPISet) (sid : Option ℕ) :
    (self.merge_kpis src sid).isSome = (src.recalculate).isSome := by
  unfold KPISet.merge_kpis
  cases h : src.recalculate <;> simp

/-! ### Percentile scan machinery -/

theorem cntSum_cons (e : ℚ × ℕ) (l : List (ℚ × ℕ)) : cntSum (e :: l) = e.2 + cntSum l := by
  simp [cntSum]

theorem sqSum_cons (avg : ℚ) (e : ℚ × ℕ) (l : List (ℚ × ℕ)) :
    sqSum avg (e :: l) = (e.2 : ℚ) * (e.1 - avg) ^ 2 + sqSum avg l := by
  simp [sqSum]

/-- Full characterization of the inner percentile `while` loop, relative to
the cumulative count `acc` of everything strictly before the current entry:
it succeeds whenever the sought position lies strictly below the total mass,
stops at the first entry whose cumulative count strictly exceeds `pos`
(which is exactly `firstCumExceeding`), transports later `firstCumExceeding`
queries, and conserves the squared-deviation mass. -/
theorem percScan_master (avg pos : ℚ) :
    ∀ (l : List (ℚ × ℕ)) (acc : ℕ) (sq : ℚ), l ≠ [] →
      pos < (acc : ℚ) + (cntSum l : ℕ) →
      ∃ l₁ acc₁ sq₁,
        percScan avg pos l (acc + l.headI.2) sq = some (l₁, acc₁ + l₁.headI.2, sq₁) ∧
        l₁ ≠ [] ∧
        firstCumExceeding pos l acc = some l₁.headI.1 ∧
        pos < ((acc₁ + l₁.headI.2 : ℕ) : ℚ) ∧
        (∀ b : ℚ, pos ≤ b → firstCumExceeding b l acc = firstCumExceeding b l₁ acc₁) ∧
        sq₁ + sqSum avg l₁ = sq + sqSum avg l ∧
        acc₁ + cntSum l₁ = acc + cntSum l := by
  intro l
  induction l with
  | nil => intro acc sq h; exact absurd rfl h
  | cons hd tl ih =>
    intro acc sq _ hbound
    obtain ⟨v, c⟩ := hd
    by_cases hle : ((acc + c : ℕ) : ℚ) ≤ pos
    · cases tl with
      | nil =>
        exfalso
        rw [cntSum_cons] at hbound
        simp [cntSum] at hbound
        push_cast at hbound hle
        linarith
      | cons hd2 tl2 =>
        obtain ⟨v2, c2⟩ := hd2
        have hbound' : pos < ((acc + c : ℕ) : ℚ) + (cntSum ((v2, c2) :: tl2) : ℕ) := by
          rw [cntSum_cons] at hbound
          push_cast at hbound ⊢
          linarith
        obtain ⟨l₁, acc₁, sq₁, hscan, hne₁, hfirst, hstop, htrans, hsq, hcnt⟩ :=
          ih (acc + c) (sq + (c : ℚ) * (v - avg) ^ 2) (by simp) hbound'
        refine ⟨l₁, acc₁, sq₁, ?_, hne₁, ?_, hstop, ?_, ?_, ?_⟩
        · rw [show percScan avg pos ((v, c) :: (v2, c2) :: tl2)
              (acc + ((v, c) :: (v2, c2) :: tl2).headI.2) sq =
              percScan avg pos ((v2, c2) :: tl2) ((acc + c) + c2)
                (sq + (c : ℚ) * (v - avg) ^ 2) by
            simp only [percScan, List.headI]
            rw [if_pos hle]]
          simpa using hscan
        · rw [show firstCumExceeding pos ((v, c) :: (v2, c2) :: tl2) acc =
              firstCumExceeding pos ((v2, c2) :: tl2) (acc + c) by
            simp only [firstCumExceeding]
            rw [if_neg (not_lt.mpr hle)]]
          exact hfirst
        · intro b hb
          rw [show firstCumExceeding b ((v, c) :: (v2, c2) :: tl2) acc =
              firstCumExceeding b ((v2, c2) :: tl2) (acc + c) by
            simp only [firstCumExceeding]
            rw [if_neg (not_lt.mpr (le_trans hle hb))]]
          exact htrans b hb
        · rw [hsq]
          simp only [sqSum_cons]
          ring
        · rw [hcnt]
          simp only [cntSum_cons]
          omega
    · push_neg at hle
      refine ⟨(v, c) :: tl, acc, sq, ?_, by simp, ?_, by simpa using hle, fun b _ => rfl, rfl, rfl⟩
      · simp only [percScan, List.headI]
        rw [if_neg (not_le.mpr (by simpa using hle))]
      · simp only [firstCumExceeding, List.headI]
        rw [if_pos (by simpa using hle)]

/-- Characterization of the per-level `for` loop of `__perc_and_stdev` over
an ascending list of requested levels: each level strictly below 100 is
resolved to the first histogram value whose cumulative count strictly
exceeds `p / 100 * num` (computed via the abstract answer table `F`, which
the shared scan state realizes), and each level of 100 or more receives
`lastVal` (`cnts[-1][0]`). -/
theorem percLoop_master (avg num lastVal : ℚ) (hnum : 0 < num) :
    ∀ (ps : List ℚ) (l : List (ℚ × ℕ)) (acc : ℕ) (sq : ℚ) (F : ℚ → Option ℚ),
      l ≠ [] → ps.Sorted (· ≤ ·) → (∀ p ∈ ps, 0 ≤ p ∧ p ≤ 100) →
      (((acc + cntSum l : ℕ) : ℚ) = num) →
      (∀ p ∈ ps, p < 100 → F p = firstCumExceeding (p / 100 * num) l acc) →
      ∃ out l₂ acc₂ sq₂,
        percLoop avg num lastVal ps l (acc + l.headI.2) sq =
          some (out, l₂, acc₂ + l₂.headI.2, sq₂) ∧
        l₂ ≠ [] ∧ (((acc₂ + cntSum l₂ : ℕ) : ℚ) = num) ∧
        sq₂ + sqSum avg l₂ = sq + sqSum avg l ∧
        out.map Prod.fst = ps ∧
        (∀ pv ∈ out, (pv.1 < 100 → F pv.1 = some pv.2) ∧ (¬ pv.1 < 100 → pv.2 = lastVal)) := by
  intro ps
  induction ps with
  | nil =>
    intro l acc sq F hne _ _ hacc _
    exact ⟨[], l, acc, sq, by simp [percLoop], hne, hacc, rfl, rfl, by simp⟩
  | cons p ps ih =>
    intro l acc sq F hne hsorted hmem hacc hF
    obtain ⟨hple, hsorted'⟩ := List.sorted_cons.mp hsorted
    have hmem' : ∀ q ∈ ps, 0 ≤ q ∧ q ≤ 100 := fun q hq => hmem q (List.mem_cons_of_mem _ hq)
    by_cases hp100 : p < 100
    · have hposlt : p / 100 * num < num := by
        have h1 : p / 100 < 1 := (div_lt_one (by norm_num)).mpr hp100
        calc p / 100 * num < 1 * num := mul_lt_mul_of_pos_right h1 hnum
          _ = num := one_mul num
      have hbound : p / 100 * num < (acc : ℚ) + (cntSum l : ℕ) := by
        push_cast at hacc
        rw [hacc]; exact hposlt
      obtain ⟨l₁, acc₁, sq₁, hscan, hne₁, hfirst, hstop, htrans, hsq, hcnt⟩ :=
        percScan_master avg (p / 100 * num) l acc sq hne hbound
      cases l₁ with
      | nil => exact absurd rfl hne₁
      | cons e1 l1t =>
        have hcnt' : ((acc₁ + cntSum (e1 :: l1t) : ℕ) : ℚ) = num := by
          rw [hcnt]; exact hacc
        have hF' : ∀ q ∈ ps, q < 100 →
            F q = firstCumExceeding (q / 100 * num) (e1 :: l1t) acc₁ := by
          intro q hq hq100
          have hpq : p / 100 * num ≤ q / 100 * num := by
            have hd : p / 100 ≤ q / 100 :=
              (div_le_div_iff_of_pos_right (by norm_num : (0 : ℚ) < 100)).mpr (hple q hq)
            exact mul_le_mul_of_nonneg_right hd hnum.le
          rw [hF q (List.mem_cons_of_mem _ hq) hq100]
          exact htrans _ hpq
        obtain ⟨out, l₂, acc₂, sq₂, hloop, hne₂, hacc₂, hsq₂, hfst, hprop⟩ :=
          ih (e1 :: l1t) acc₁ sq₁ F (by simp) hsorted' hmem' hcnt' hF'
        refine ⟨(p, e1.1) :: out, l₂, acc₂, sq₂, ?_, hne₂, hacc₂, ?_, by simp [hfst], ?_⟩
        · rw [show percLoop avg num lastVal (p :: ps) l (acc + l.headI.2) sq =
              match percScan avg (p / 100 * num) l (acc + l.headI.2) sq with
              | none => none
              | some (l', cum', sq') =>
                match l' with
                | [] => none
                | (v, _) :: _ =>
                  match percLoop avg num lastVal ps l' cum' sq' with
                  | none => none
                  | some (out, l'', cum'', sq'') => some ((p, v) :: out, l'', cum'', sq'') by
            cases l with
            | nil => exact absurd rfl hne
            | cons e es => simp only [percLoop, if_pos hp100]]
          rw [hscan]
          simp only [List.headI] at hloop ⊢
          rw [hloop]
        · rw [hsq₂, hsq]
        · intro pv hpv
          rcases List.mem_cons.mp hpv with h | h
          · subst h
            refine ⟨fun _ => ?_, fun hcon => absurd hp100 hcon⟩
            rw [hF p (List.mem_cons_self _ _) hp100, hfirst]
            simp
          · exact hprop pv h
    · obtain ⟨out, l₂, acc₂, sq₂, hloop, hne₂, hacc₂, hsq₂, hfst, hprop⟩ :=
        ih l acc sq F hne hsorted' hmem'
          hacc (fun q hq hq100 => hF q (List.mem_cons_of_mem _ hq) hq100)
      refine ⟨(p, lastVal) :: out, l₂, acc₂, sq₂, ?_, hne₂, hacc₂, hsq₂, by simp [hfst], ?_⟩
      · rw [show percLoop avg num lastVal (p :: ps) l (acc + l.headI.2) sq =
            match percLoop avg num lastVal ps l (acc + l.headI.2) sq with
            | none => none
            | some (out, l'', cum'', sq'') => some ((p, lastVal) :: out, l'', cum'', sq'') by
          simp only [percLoop, if_neg hp100]]
        rw [hloop]
      · intro pv hpv
        rcases List.mem_cons.mp hpv with h | h
        · subst h
          exact ⟨fun hcon => absurd hcon hp100, fun _ => rfl⟩
        · exact hprop pv h

theorem sortedCnts_perm (cnts : List (ℚ × ℕ)) : (sortedCnts cnts).Perm cnts :=
  List.perm_insertionSort _ cnts

theorem cntSum_sortedCnts (cnts : List (ℚ × ℕ)) : cntSum (sortedCnts cnts) = cntSum cnts :=
  ((sortedCnts_perm cnts).map Prod.snd).sum_eq

theorem sqSum_sortedCnts (avg : ℚ) (cnts : List (ℚ × ℕ)) :
    sqSum avg (sortedCnts cnts) = sqSum avg cnts :=
  ((sortedCnts_perm cnts).map _).sum_eq

theorem getLastD_indep (l : List α) (a d d' : α) :
    (a :: l).getLastD d = (a :: l).getLastD d' := by
  cases l <;> simp [List.getLastD]

/-- Full characterization of `__perc_and_stdev` on well-formed input
(levels within `[0, 100]`, positive counts): it succeeds, its variance
component is exactly `sqr_diffs / len(cnts)` with every histogram entry's
squared deviation counted exactly once, an empty histogram yields an empty
percentile list and zero, and each emitted pair resolves a level below 100
to the first sorted value whose cumulative count strictly exceeds
`p / 100 * num` and a level of 100 or more to the last (largest) value. -/
theorem percAndStdev_master (cnts : List (ℚ × ℕ)) (levels : List ℚ) (avg : ℚ)
    (hl : ∀ p ∈ levels, 0 ≤ p ∧ p ≤ 100) (hc : ∀ e ∈ cnts, 0 < e.2) :
    ∃ out varr,
      percAndStdev cnts levels avg = some (out, varr) ∧
      varr = sqSum avg cnts / (cnts.length : ℚ) ∧
      (cnts = [] → out = []) ∧
      (cnts ≠ [] → out.map Prod.fst = List.insertionSort (fun a b : ℚ => a ≤ b) levels) ∧
      (∀ pv ∈ out,
        (pv.1 < 100 →
          firstCumExceeding (pv.1 / 100 * ((cntSum cnts : ℕ) : ℚ)) (sortedCnts cnts) 0 =
            some pv.2) ∧
        (¬ pv.1 < 100 → pv.2 = ((sortedCnts cnts).getLastD ((0 : ℚ), (0 : ℕ))).1)) := by
  have hany : (levels.any fun p => ¬ (0 ≤ p ∧ p ≤ 100)) = false := by
    simp only [List.any_eq_false, decide_eq_true_eq]
    intro p hp
    simp only [not_not]
    exact hl p hp
  by_cases hcnil : cnts = []
  · subst hcnil
    refine ⟨[], 0, ?_, by simp [sqSum], fun _ => rfl, fun h => absurd rfl h, by simp⟩
    unfold percAndStdev
    rw [hany]
    simp
  · have hCne : sortedCnts cnts ≠ [] := by
      intro h
      apply hcnil
      have hlen := (sortedCnts_perm cnts).length_eq
      rw [h] at hlen
      exact List.length_eq_zero.mp hlen.symm
    cases hC : sortedCnts cnts with
    | nil => exact absurd hC hCne
    | cons e0 rest =>
      obtain ⟨v0, c0⟩ := e0
      have hcC : ∀ e ∈ sortedCnts cnts, 0 < e.2 := fun e he =>
        hc e ((sortedCnts_perm cnts).mem_iff.mp he)
      have hnum : (0 : ℚ) < ((cntSum cnts : ℕ) : ℚ) := by
        have h1 : 0 < cntSum (sortedCnts cnts) := by
          rw [hC, cntSum_cons]
          have := hcC (v0, c0) (by rw [hC]; exact List.mem_cons_self _ _)
          omega
        rw [cntSum_sortedCnts] at h1
        exact_mod_cast h1
      have hsorted : (List.insertionSort (fun a b : ℚ => a ≤ b) levels).Sorted (· ≤ ·) :=
        List.sorted_insertionSort (fun a b : ℚ => a ≤ b) levels
      have hmemS : ∀ p ∈ List.insertionSort (fun a b : ℚ => a ≤ b) levels, 0 ≤ p ∧ p ≤ 100 :=
        fun p hp => hl p ((List.perm_insertionSort _ levels).mem_iff.mp hp)
      have haccS : (((0 + cntSum ((v0, c0) :: rest) : ℕ)) : ℚ) = ((cntSum cnts : ℕ) : ℚ) := by
        rw [Nat.zero_add, ← hC, cntSum_sortedCnts]
      obtain ⟨out, l₂, acc₂, sq₂, hloop, hne₂, hacc₂, hsq₂, hfst, hprop⟩ :=
        percLoop_master avg ((cntSum cnts : ℕ) : ℚ)
          ((((v0, c0) :: rest).getLastD (v0, c0)).1) hnum
          (List.insertionSort (fun a b : ℚ => a ≤ b) levels)
          ((v0, c0) :: rest) 0 0
          (fun p => firstCumExceeding (p / 100 * ((cntSum cnts : ℕ) : ℚ)) ((v0, c0) :: rest) 0)
          (by simp) hsorted hmemS haccS (fun p _ _ => rfl)
      refine ⟨out, (sq₂ + sqSum avg l₂) / ((sortedCnts cnts).length : ℚ), ?_, ?_, ?_, ?_, ?_⟩
      · rw [List.headI_cons, Nat.zero_add] at hloop
        unfold percAndStdev
        rw [hany]
        rw [if_neg (by simp : ¬ ((false : Bool) = true)), if_neg hcnil, hC]
        show (match percLoop avg ((cntSum cnts : ℕ) : ℚ) (((v0, c0) :: rest).getLastD (v0, c0)).1
            (List.insertionSort (fun a b : ℚ => a ≤ b) levels) ((v0, c0) :: rest) c0 0 with
          | none => none
          | some (out, lrest, _, sq) =>
            some (out, (sq + sqSum avg lrest) / ((((v0, c0) :: rest)).length : ℚ))) =
          some (out, (sq₂ + sqSum avg l₂) / (((v0, c0) :: rest).length : ℚ))
        rw [hloop]
      · rw [hsq₂, zero_add, ← hC, sqSum_sortedCnts, (sortedCnts_perm cnts).length_eq]
      · intro h; exact absurd h hcnil
      · intro _; exact hfst
      · intro pv hpv
        obtain ⟨h1, h2⟩ := hprop pv hpv
        constructor
        · intro hlt
          exact h1 hlt
        · intro hge
          rw [h2 hge, getLastD_indep rest (v0, c0) (v0, c0) ((0 : ℚ), (0 : ℕ))]

/-! ### Well-formedness and success lemmas -/

theorem recalculate_isSome (k : KPISet) (hWF : WFk k) : ∃ k', k.recalculate = some k' := by
  obtain ⟨hl, hc⟩ := hWF
  obtain ⟨_, _, _, _, _, _, a7, _, _, a10, _⟩ := recalcAvgs_fields k
  obtain ⟨_, _, _, _, _, _, b7, _, _, b10, _⟩ := recalcConc_fields k.recalcAvgs
  have hrt : k.recalcAvgs.recalcConc.rt = k.rt := by rw [b7, a7]
  have hpl : k.recalcAvgs.recalcConc.perc_levels = k.perc_levels := by rw [b10, a10]
  obtain ⟨out, varr, hps, -, -, -, -⟩ :=
    percAndStdev_master k.rt k.perc_levels k.recalcAvgs.recalcConc.avg_rt hl hc
  have hsome : (k.recalculate).isSome := by
    unfold KPISet.recalculate
    rw [hrt, hpl, hps]
    rfl
  exact Option.isSome_iff_exists.mp hsome

theorem recalculate_WF (k k' : KPISet) (h : k.recalculate = some k') (hWF : WFk k) :
    WFk k' := by
  obtain ⟨_, _, _, _, _, _, h7, _, _, h10, _⟩ := recalculate_fields k k' h
  exact ⟨h10 ▸ hWF.1, h7 ▸ hWF.2⟩

theorem merge_kpis_isSome_of (self src : KPISet) (sid : Option ℕ) (hWF : WFk src) :
    ∃ m, self.merge_kpis src sid = some m := by
  obtain ⟨src', hrec⟩ := recalculate_isSome src hWF
  have h := merge_kpis_isSome self src sid
  rw [hrec] at h
  simp only [Option.isSome_some] at h
  exact Option.isSome_iff_exists.mp h

theorem merge_kpis_WF (self src m : KPISet) (sid : Option ℕ)
    (h : self.merge_kpis src sid = some m) (hself : WFk self)
    (hsrc : ∀ e ∈ src.rt, 0 < e.2) : WFk m := by
  obtain ⟨_, _, _, _, _, _, h7, _, h9⟩ := merge_kpis_fields self src m sid h
  refine ⟨h9 ▸ hself.1, h7 ▸ ?_⟩
  exact counterUpdate_pos self.rt src.rt hself.2 hsrc

theorem add_sample_rt_pos (k : KPISet) (s : Sample) (hk : ∀ e ∈ k.rt, 0 < e.2) :
    ∀ e ∈ (k.add_sample s).rt, 0 < e.2 := by
  rw [add_sample_eq]
  exact counterIncr_pos k.rt s.r_time 1 hk (by omega)

theorem add_sample_perc_levels (k : KPISet) (s : Sample) :
    (k.add_sample s).perc_levels = k.perc_levels := by
  rw [add_sample_eq]

theorem add_sample_WF (k : KPISet) (s : Sample) (hWF : WFk k) : WFk (k.add_sample s) := by
  refine ⟨?_, add_sample_rt_pos k s hWF.2⟩
  rw [add_sample_perc_levels]
  exact hWF.1

theorem add_sample_throughput (k : KPISet) (s : Sample) :
    (k.add_sample s).throughput = k.throughput + 1 := by
  rw [add_sample_eq]

theorem add_sample_sum_rt (k : KPISet) (s : Sample) :
    (k.add_sample s).sum_rt = k.sum_rt + (if s.r_code ≠ none then s.r_time else 0) := by
  rw [add_sample_eq]
  cases s.r_code <;> simp

theorem add_sample_rc (k : KPISet) (s : Sample) :
    (k.add_sample s).rc =
      match s.r_code with
      | none => k.rc
      | some code => counterIncr k.rc code 1 := by
  rw [add_sample_eq]

theorem add_sample_succ (k : KPISet) (s : Sample) :
    (k.add_sample s).succ = k.succ + (if s.error = none then 1 else 0) := by
  rw [add_sample_eq]
  cases s.error <;> simp

theorem add_sample_fail (k : KPISet) (s : Sample) :
    (k.add_sample s).fail = k.fail + (if s.error = none then 0 else 1) := by
  rw [add_sample_eq]
  cases s.error <;> simp

theorem countRC_cons (s : Sample) (S : List Sample) (code : String) :
    countRC (s :: S) code = (if s.r_code = some code then 1 else 0) + countRC S code := by
  simp only [countRC, List.filter_cons]
  by_cases h : s.r_code = some code <;>
    first
    | (simp [h]; omega)
    | simp [h]

theorem buildKPI_foldl_throughput (S : List Sample) :
    ∀ k : KPISet, (S.foldl KPISet.add_sample k).throughput = k.throughput + S.length := by
  induction S with
  | nil => intro k; simp
  | cons s S ih =>
    intro k
    rw [List.foldl_cons, ih, add_sample_throughput]
    simp only [List.length_cons]
    omega

theorem buildKPI_foldl_sum_rt (S : List Sample) :
    ∀ k : KPISet, (S.foldl KPISet.add_sample k).sum_rt = k.sum_rt + specSumRt S := by
  induction S with
  | nil => intro k; simp [specSumRt]
  | cons s S ih =>
    intro k
    rw [List.foldl_cons, ih, add_sample_sum_rt]
    by_cases h : s.r_code = none
    · simp [specSumRt, h]
    · simp [specSumRt, h]
      ring

theorem buildKPI_foldl_rc (S : List Sample) (code : String) :
    ∀ k : KPISet, lookupD (S.foldl KPISet.add_sample k).rc code 0 =
      lookupD k.rc code 0 + countRC S code := by
  induction S with
  | nil => intro k; simp [countRC]
  | cons s S ih =>
    intro k
    rw [List.foldl_cons, ih, countRC_cons]
    rcases hrc : s.r_code with _ | c
    · simp only [add_sample_rc, hrc]
      simp
    · simp only [add_sample_rc, hrc, lookupD_counterIncr]
      by_cases hc : c = code
      · subst hc
        simp
        omega
      · have hne : ¬ (some c = some code) := by
          simp [hc]
        simp [hc, hne]

theorem buildKPI_foldl_rt_pos (S : List Sample) :
    ∀ k : KPISet, (∀ e ∈ k.rt, 0 < e.2) →
      ∀ e ∈ (S.foldl KPISet.add_sample k).rt, 0 < e.2 := by
  induction S with
  | nil => intro k hk; simpa using hk
  | cons s S ih =>
    intro k hk
    rw [List.foldl_cons]
    exact ih _ (add_sample_rt_pos k s hk)

theorem buildKPI_foldl_perc_levels (S : List Sample) :
    ∀ k : KPISet, (S.foldl KPISet.add_sample k).perc_levels = k.perc_levels := by
  induction S with
  | nil => intro k; rfl
  | cons s S ih =>
    intro k
    rw [List.foldl_cons, ih, add_sample_perc_levels]

theorem buildKPI_WF (levels : List ℚ) (S : List Sample)
    (hl : ∀ p ∈ levels, 0 ≤ p ∧ p ≤ 100) : WFk (buildKPI levels S) := by
  constructor
  · rw [buildKPI, buildKPI_foldl_perc_levels]
    exact hl
  · exact buildKPI_foldl_rt_pos S _ (by simp [KPISet.init])

/-! ### Claims C1 and C2 -/

theorem rc_keys_nodup_foldl (S : List Sample) :
    ∀ k : KPISet, ((k.rc).map Prod.fst).Nodup →
      (((S.foldl KPISet.add_sample k).rc).map Prod.fst).Nodup := by
  induction S with
  | nil => intro k hk; simpa using hk
  | cons s S ih =>
    intro k hk
    rw [List.foldl_cons]
    apply ih
    rw [add_sample_rc]
    cases s.r_code with
    | none => exact hk
    | some c => exact nodup_keys_counterIncr k.rc c 1 hk

theorem specSumRt_append (S1 S2 : List Sample) :
    specSumRt (S1 ++ S2) = specSumRt S1 + specSumRt S2 := by
  simp [specSumRt, List.filter_append]

theorem countRC_append (S1 S2 : List Sample) (code : String) :
    countRC (S1 ++ S2) code = countRC S1 code + countRC S2 code := by
  simp [countRC, List.filter_append]

/-- Claim C1: for every sequence of `add_sample` and (successful)
`merge_kpis` operations starting from an empty `KPISet`, the sample count
equals the success count plus the failure count after every operation. -/
theorem claim_C1_count_invariant (k : KPISet) (h : Reaches k) :
    k.throughput = k.succ + k.fail := by
  induction h with
  | empty levels => rfl
  | add k s _ ih =>
    rw [add_sample_throughput, add_sample_succ, add_sample_fail, ih]
    by_cases he : s.error = none <;> simp [he] <;> omega
  | merge k src k' sid _ _ hmerge ihk ihsrc =>
    obtain ⟨h1, h2, h3, _⟩ := merge_kpis_fields _ _ _ _ hmerge
    omega

theorem claim_C1_count_invariant_witness :
    ((KPISet.init []).add_sample ⟨1, 2, none, 1, some "200", none, "t"⟩).throughput =
      ((KPISet.init []).add_sample ⟨1, 2, none, 1, some "200", none, "t"⟩).succ +
        ((KPISet.init []).add_sample ⟨1, 2, none, 1, some "200", none, "t"⟩).fail :=
  claim_C1_count_invariant _ (Reaches.add _ _ (Reaches.empty []))

/-- Claim C2: building a `KPISet` from `S1`, another from `S2`, merging the
second into the first and recalculating yields the same sample count, the
same running response-time sum and the same response-code histogram as
building a single `KPISet` directly from `S1 ++ S2` (histograms compared as
code→count tables). -/
theorem claim_C2_merge_equals_rebuild (S1 S2 : List Sample) (levels : List ℚ)
    (sid : Option ℕ) (hl : ∀ p ∈ levels, 0 ≤ p ∧ p ≤ 100) :
    ∃ m m', (buildKPI levels S1).merge_kpis (buildKPI levels S2) sid = some m ∧
      m.recalculate = some m' ∧
      m'.throughput = (buildKPI levels (S1 ++ S2)).throughput ∧
      m'.sum_rt = (buildKPI levels (S1 ++ S2)).sum_rt ∧
      (∀ code, lookupD m'.rc code 0 = lookupD (buildKPI levels (S1 ++ S2)).rc code 0) := by
  have hWF1 := buildKPI_WF levels S1 hl
  have hWF2 := buildKPI_WF levels S2 hl
  obtain ⟨m, hm⟩ := merge_kpis_isSome_of (buildKPI levels S1) (buildKPI levels S2) sid hWF2
  have hWFm := merge_kpis_WF _ _ _ _ hm hWF1 hWF2.2
  obtain ⟨m', hm'⟩ := recalculate_isSome m hWFm
  obtain ⟨f1, _, _, f4, _, _, _, f8, _⟩ := merge_kpis_fields _ _ _ _ hm
  obtain ⟨g1, _, _, g4, _, _, _, g8, _⟩ := recalculate_fields m m' hm'
  refine ⟨m, m', hm, hm', ?_, ?_, ?_⟩
  · rw [g1, f1, buildKPI, buildKPI, buildKPI, buildKPI_foldl_throughput,
      buildKPI_foldl_throughput, buildKPI_foldl_throughput, List.length_append]
    have h0 : (KPISet.init levels).throughput = 0 := rfl
    rw [h0]
    omega
  · rw [g4, f4, buildKPI, buildKPI, buildKPI, buildKPI_foldl_sum_rt,
      buildKPI_foldl_sum_rt, buildKPI_foldl_sum_rt, specSumRt_append]
    show (0 : ℚ) + specSumRt S1 + ((0 : ℚ) + specSumRt S2) = 0 + (specSumRt S1 + specSumRt S2)
    ring
  · intro code
    have hnodup2 : (((buildKPI levels S2).rc).map Prod.fst).Nodup := by
      rw [buildKPI]
      exact rc_keys_nodup_foldl S2 _ (by simp [KPISet.init])
    rw [g8, f8, lookupD_counterUpdate _ _ _ hnodup2, buildKPI, buildKPI, buildKPI,
      buildKPI_foldl_rc, buildKPI_foldl_rc, buildKPI_foldl_rc, countRC_append]
    show lookupD (KPISet.init levels).rc code 0 + countRC S1 code +
        (lookupD (KPISet.init levels).rc code 0 + countRC S2 code) =
      lookupD (KPISet.init levels).rc code 0 + (countRC S1 code + countRC S2 code)
    simp [KPISet.init, lookupD]

theorem claim_C2_merge_equals_rebuild_witness :
    (∀ p ∈ ([] : List ℚ), 0 ≤ p ∧ p ≤ 100) ∧
    (∃ m m', (buildKPI [] [⟨1, 2, none, 1, some "200", none, "t"⟩]).merge_kpis
        (buildKPI [] [⟨1, 3, none, 1, some "404", some "err", "t"⟩]) none = some m ∧
      m.recalculate = some m' ∧
      m'.throughput = (buildKPI [] ([⟨1, 2, none, 1, some "200", none, "t"⟩] ++
        [⟨1, 3, none, 1, some "404", some "err", "t"⟩])).throughput ∧
      m'.sum_rt = (buildKPI [] ([⟨1, 2, none, 1, some "200", none, "t"⟩] ++
        [⟨1, 3, none, 1, some "404", some "err", "t"⟩])).sum_rt ∧
      (∀ code, lookupD m'.rc code 0 =
        lookupD (buildKPI [] ([⟨1, 2, none, 1, some "200", none, "t"⟩] ++
          [⟨1, 3, none, 1, some "404", some "err", "t"⟩])).rc code 0)) :=
  ⟨by decide, claim_C2_merge_equals_rebuild _ _ [] none (by decide)⟩

/-! ### Claims C3 and C4 -/

theorem getLastD_mem : ∀ (l : List α) (d : α), l ≠ [] → l.getLastD d ∈ l := by
  intro l
  induction l with
  | nil => intro d h; exact absurd rfl h
  | cons a t ih =>
    intro d _
    cases t with
    | nil => simp [List.getLastD]
    | cons b t2 =>
      rw [List.getLastD_cons]
      exact List.mem_cons_of_mem a (ih a (by simp))

theorem sorted_le_getLastD (l : List (ℚ × ℕ)) (d : ℚ × ℕ)
    (hs : l.Pairwise (fun a b : ℚ × ℕ => a.1 ≤ b.1)) :
    ∀ e ∈ l, e.1 ≤ (l.getLastD d).1 := by
  induction l generalizing d with
  | nil => intro e he; simp at he
  | cons a t ih =>
    intro e he
    rw [List.pairwise_cons] at hs
    rw [List.getLastD_cons]
    rcases List.mem_cons.mp he with h | h
    · subst h
      cases t with
      | nil => simp [List.getLastD]
      | cons b t2 =>
        exact le_trans (hs.1 b (List.mem_cons_self _ _))
          (ih e hs.2 b (List.mem_cons_self _ _))
    · cases t with
      | nil => simp at h
      | cons b t2 => exact ih a hs.2 e h

theorem sorted_headI_le (l : List (ℚ × ℕ))
    (hs : l.Pairwise (fun a b : ℚ × ℕ => a.1 ≤ b.1)) :
    ∀ e ∈ l, l.headI.1 ≤ e.1 := by
  cases l with
  | nil => intro e he; simp at he
  | cons a t =>
    intro e he
    rw [List.pairwise_cons] at hs
    rcases List.mem_cons.mp he with h | h
    · subst h; simp
    · simpa using hs.1 e h

theorem sortedCnts_sorted (cnts : List (ℚ × ℕ)) :
    (sortedCnts cnts).Pairwise (fun a b : ℚ × ℕ => a.1 ≤ b.1) :=
  List.sorted_insertionSort (fun a b : ℚ × ℕ => a.1 ≤ b.1) cnts

/-- Claim C3 (amended): on a non-empty histogram with positive counts and
levels within `[0, 100]`, `__perc_and_stdev` succeeds and assigns each
requested level `p < 100` the first value of the ascending histogram whose
cumulative frequency strictly exceeds `p / 100 * totalSamples` (not the
reach-or-exceed rule); level 100 receives the maximum observed value and
level 0 the minimum. -/
theorem claim_C3_percentile_rule (cnts : List (ℚ × ℕ)) (levels : List ℚ) (avg : ℚ)
    (hl : ∀ p ∈ levels, 0 ≤ p ∧ p ≤ 100) (hc : ∀ e ∈ cnts, 0 < e.2) (hne : cnts ≠ []) :
    ∃ out varr, percAndStdev cnts levels avg = some (out, varr) ∧
      ∀ pv ∈ out,
        (pv.1 < 100 →
          firstCumExceeding (pv.1 / 100 * ((cntSum cnts : ℕ) : ℚ)) (sortedCnts cnts) 0 =
            some pv.2) ∧
        (pv.1 = 100 → pv.2 ∈ cnts.map Prod.fst ∧ ∀ w ∈ cnts.map Prod.fst, w ≤ pv.2) ∧
        (pv.1 = 0 → pv.2 ∈ cnts.map Prod.fst ∧ ∀ w ∈ cnts.map Prod.fst, pv.2 ≤ w) := by
  obtain ⟨out, varr, hps, -, -, -, hprop⟩ := percAndStdev_master cnts levels avg hl hc
  have hCne : sortedCnts cnts ≠ [] := by
    intro h
    apply hne
    have hlen := (sortedCnts_perm cnts).length_eq
    rw [h] at hlen
    exact List.length_eq_zero.mp hlen.symm
  refine ⟨out, varr, hps, ?_⟩
  intro pv hpv
  obtain ⟨h1, h2⟩ := hprop pv hpv
  refine ⟨h1, ?_, ?_⟩
  · intro h100
    have hv : pv.2 = ((sortedCnts cnts).getLastD ((0 : ℚ), (0 : ℕ))).1 :=
      h2 (by rw [h100]; exact lt_irrefl 100)
    have hmem : ((sortedCnts cnts).getLastD ((0 : ℚ), (0 : ℕ))) ∈ sortedCnts cnts :=
      getLastD_mem _ _ hCne
    constructor
    · rw [hv]
      exact List.mem_map_of_mem Prod.fst ((sortedCnts_perm cnts).mem_iff.mp hmem)
    · intro w hw
      obtain ⟨e, he, rfl⟩ := List.mem_map.mp hw
      rw [hv]
      exact sorted_le_getLastD _ _ (sortedCnts_sorted cnts) e
        ((sortedCnts_perm cnts).mem_iff.mpr he)
  · intro h0
    have hlt : pv.1 < 100 := by rw [h0]; norm_num
    have hfc := h1 hlt
    rw [h0] at hfc
    rw [show (0 : ℚ) / 100 * ((cntSum cnts : ℕ) : ℚ) = 0 by ring] at hfc
    cases hC : sortedCnts cnts with
    | nil => exact absurd hC hCne
    | cons e0 rest =>
      have hpos : (0 : ℚ) < ((0 + e0.2 : ℕ) : ℚ) := by
        have hcc := hc e0 ((sortedCnts_perm cnts).mem_iff.mp (hC ▸ List.mem_cons_self _ _))
        have hn : (0 : ℕ) < 0 + e0.2 := by omega
        exact_mod_cast hn
      rw [hC] at hfc
      rw [show firstCumExceeding 0 (e0 :: rest) 0 = some e0.1 by
        cases e0 with
        | mk v c =>
          simp only [firstCumExceeding]
          rw [if_pos (by simpa using hpos)]] at hfc
      have hv : pv.2 = e0.1 := by
        have := Option.some.injEq e0.1 pv.2 ▸ hfc
        exact (Option.some_inj.mp hfc).symm
      have hmem : e0 ∈ sortedCnts cnts := hC ▸ List.mem_cons_self _ _
      constructor
      · rw [hv]
        exact List.mem_map_of_mem Prod.fst ((sortedCnts_perm cnts).mem_iff.mp hmem)
      · intro w hw
        obtain ⟨e, he, rfl⟩ := List.mem_map.mp hw
        rw [hv]
        have hh := sorted_headI_le (sortedCnts cnts) (sortedCnts_sorted cnts) e
          ((sortedCnts_perm cnts).mem_iff.mpr he)
        rw [hC] at hh
        simpa using hh

theorem claim_C3_percentile_rule_witness :
    (∀ p ∈ [(50 : ℚ)], 0 ≤ p ∧ p ≤ 100) ∧
    (∀ e ∈ [((1 : ℚ), (1 : ℕ)), (2, 1)], 0 < e.2) ∧
    (∃ out varr, percAndStdev [((1 : ℚ), (1 : ℕ)), (2, 1)] [(50 : ℚ)] 0 = some (out, varr) ∧
      ∀ pv ∈ out,
        (pv.1 < 100 →
          firstCumExceeding (pv.1 / 100 * ((cntSum [((1 : ℚ), (1 : ℕ)), (2, 1)] : ℕ) : ℚ))
            (sortedCnts [((1 : ℚ), (1 : ℕ)), (2, 1)]) 0 = some pv.2) ∧
        (pv.1 = 100 → pv.2 ∈ [((1 : ℚ), (1 : ℕ)), (2, 1)].map Prod.fst ∧
          ∀ w ∈ [((1 : ℚ), (1 : ℕ)), (2, 1)].map Prod.fst, w ≤ pv.2) ∧
        (pv.1 = 0 → pv.2 ∈ [((1 : ℚ), (1 : ℕ)), (2, 1)].map Prod.fst ∧
          ∀ w ∈ [((1 : ℚ), (1 : ℕ)), (2, 1)].map Prod.fst, pv.2 ≤ w)) :=
  ⟨by decide, by decide,
    claim_C3_percentile_rule _ _ 0 (by decide) (by decide) (by decide)⟩

/-- Claim C3, as stated, is false: on the histogram `{1: 1, 2: 1}` with
requested level 50, the smallest value whose cumulative frequency reaches
or exceeds `50/100 * 2 = 1` is `1` (its cumulative frequency is exactly 1),
but the code returns `2`, because its scan only stops once the cumulative
frequency strictly exceeds the position. -/
theorem claim_C3_counterexample :
    (percAndStdev [((1 : ℚ), (1 : ℕ)), (2, 1)] [(50 : ℚ)] 0).map (fun r => r.1) =
      some [((50 : ℚ), (2 : ℚ))] ∧
    firstCumReaching ((50 : ℚ) / 100 * ((cntSum [((1 : ℚ), (1 : ℕ)), (2, 1)] : ℕ) : ℚ))
      (sortedCnts [((1 : ℚ), (1 : ℕ)), (2, 1)]) 0 = some 1 ∧
    ((2 : ℚ) ≠ 1) := by
  refine ⟨?_, ?_, by norm_num⟩
  · have h1 : sortedCnts [((1 : ℚ), (1 : ℕ)), (2, 1)] = [((1 : ℚ), (1 : ℕ)), (2, 1)] := by
      norm_num [sortedCnts, List.insertionSort, List.orderedInsert]
    have h2 : List.insertionSort (fun a b : ℚ => a ≤ b) [(50 : ℚ)] = [(50 : ℚ)] := by
      norm_num [List.insertionSort, List.orderedInsert]
    unfold percAndStdev
    rw [h1, h2]
    norm_num [percLoop, percScan, cntSum, List.getLastD]
    exact ⟨(1 + sqSum 0 [((2 : ℚ), (1 : ℕ))]) / 2, by rw [if_neg (by simp)]⟩
  · have h1 : sortedCnts [((1 : ℚ), (1 : ℕ)), (2, 1)] = [((1 : ℚ), (1 : ℕ)), (2, 1)] := by
      norm_num [sortedCnts, List.insertionSort, List.orderedInsert]
    rw [h1]
    norm_num [firstCumReaching, cntSum]

/-- Claim C4: on well-formed input, the standard deviation produced by the
single-pass computation is the square root of the total of
`count * (value - mean)^2` over the distinct histogram values divided by the
number of distinct values, each entry contributing exactly once; an empty
histogram yields an empty percentile set and a zero standard deviation. -/
theorem claim_C4_stdev_formula (cnts : List (ℚ × ℕ)) (levels : List ℚ) (avg : ℚ)
    (hl : ∀ p ∈ levels, 0 ≤ p ∧ p ≤ 100) (hc : ∀ e ∈ cnts, 0 < e.2) :
    ∃ out varr, percAndStdev cnts levels avg = some (out, varr) ∧
      varr = sqSum avg cnts / (cnts.length : ℚ) ∧
      Real.sqrt (varr : ℝ) =
        Real.sqrt (((sqSum avg cnts / (cnts.length : ℚ) : ℚ) : ℝ)) ∧
      (cnts = [] → out = [] ∧ varr = 0) := by
  obtain ⟨out, varr, hps, hvarr, hnil, -, -⟩ := percAndStdev_master cnts levels avg hl hc
  refine ⟨out, varr, hps, hvarr, by rw [hvarr], ?_⟩
  intro h
  refine ⟨hnil h, ?_⟩
  rw [hvarr, h]
  simp [sqSum]

theorem claim_C4_stdev_formula_witness :
    (∀ p ∈ [(50 : ℚ)], 0 ≤ p ∧ p ≤ 100) ∧
    (∀ e ∈ ([] : List (ℚ × ℕ)), 0 < e.2) ∧
    (∃ out varr, percAndStdev ([] : List (ℚ × ℕ)) [(50 : ℚ)] 0 = some (out, varr) ∧
      varr = sqSum 0 ([] : List (ℚ × ℕ)) / ((([] : List (ℚ × ℕ)).length : ℕ) : ℚ) ∧
      Real.sqrt (varr : ℝ) =
        Real.sqrt (((sqSum 0 ([] : List (ℚ × ℕ)) /
          ((([] : List (ℚ × ℕ)).length : ℕ) : ℚ) : ℚ) : ℝ)) ∧
      (([] : List (ℚ × ℕ)) = [] → out = [] ∧ varr = 0)) :=
  ⟨by decide, by decide, claim_C4_stdev_formula [] [(50 : ℚ)] 0 (by decide) (by decide)⟩

/-! ### Label-map lemmas -/

theorem lookupD_default_irrel [DecidableEq α] (m : List (α × β)) (k : α) (d d' : β)
    (h : k ∈ m.map Prod.fst) : lookupD m k d = lookupD m k d' := by
  induction m with
  | nil => simp at h
  | cons hd tl ih =>
    by_cases hk : hd.1 = k
    · simp [lookupD, hk]
    · simp only [List.map_cons, List.mem_cons] at h
      rcases h with h | h
      · exact absurd h.symm hk
      · simpa [lookupD, hk] using ih h

theorem lookupD_mem_or_default [DecidableEq α] (m : List (α × β)) (k : α) (d : β) :
    lookupD m k d = d ∨ (k, lookupD m k d) ∈ m := by
  induction m with
  | nil => simp [lookupD]
  | cons hd tl ih =>
    by_cases hk : hd.1 = k
    · right
      obtain ⟨k0, v0⟩ := hd
      simp only at hk
      subst hk
      simp [lookupD]
    · rcases ih with h | h
      · left
        simpa [lookupD, hk] using h
      · right
        simp only [lookupD, if_neg hk]
        exact List.mem_cons_of_mem _ h

theorem kpiCount_lookupD (m : List (String × KPISet)) (label : String) (levels : List ℚ) :
    (lookupD m label (KPISet.init levels)).throughput = kpiCount m label := by
  by_cases h : label ∈ m.map Prod.fst
  · rw [kpiCount, lookupD_default_irrel m label (KPISet.init levels) (KPISet.init []) h]
  · rw [kpiCount, lookupD_of_not_mem _ _ _ h, lookupD_of_not_mem _ _ _ h]
    rfl

theorem kpiCount_absent (m : List (String × KPISet)) (label : String)
    (h : label ∉ m.map Prod.fst) : kpiCount m label = 0 := by
  rw [kpiCount, lookupD_of_not_mem _ _ _ h]
  rfl

theorem kpiCount_cons_self (label : String) (val : KPISet)
    (rest : List (String × KPISet)) : kpiCount ((label, val) :: rest) label = val.throughput := by
  simp [kpiCount, lookupD]

theorem kpiCount_cons_ne (label label0 : String) (val : KPISet)
    (rest : List (String × KPISet)) (h : label ≠ label0) :
    kpiCount ((label0, val) :: rest) label = kpiCount rest label := by
  simp only [kpiCount, lookupD]
  rw [if_neg (fun hh : label0 = label => h hh.symm)]

theorem nodup_keys_assocSet [DecidableEq α] (m : List (α × β)) (k : α) (v : β)
    (h : (m.map Prod.fst).Nodup) : ((assocSet m k v).map Prod.fst).Nodup := by
  rw [keys_assocSet]
  by_cases hk : k ∈ m.map Prod.fst
  · simpa [hk] using h
  · simp only [if_neg hk]
    refine List.Nodup.append h (List.nodup_singleton k) ?_
    intro x hx hxk
    simp only [List.mem_singleton] at hxk
    exact hk (hxk ▸ hx)

theorem keys_findOrCreate [DecidableEq α] (m : List (α × β)) (k : α) (d : β) :
    ((findOrCreate m k d).2).map Prod.fst =
      (if k ∈ m.map Prod.fst then m.map Prod.fst else m.map Prod.fst ++ [k]) := by
  induction m with
  | nil => simp [findOrCreate]
  | cons hd tl ih =>
    by_cases h : hd.1 = k
    · subst h
      simp [findOrCreate]
    · have h2 : ¬ k = hd.1 := fun hh => h hh.symm
      simp only [findOrCreate, if_neg h, List.map_cons, ih, List.mem_cons]
      by_cases h' : k ∈ tl.map Prod.fst
      · simp [h', h2]
      · simp [h', h2]

theorem nodup_keys_findOrCreate [DecidableEq α] (m : List (α × β)) (k : α) (d : β)
    (h : (m.map Prod.fst).Nodup) : (((findOrCreate m k d).2).map Prod.fst).Nodup := by
  rw [keys_findOrCreate]
  by_cases hk : k ∈ m.map Prod.fst
  · simpa [hk] using h
  · simp only [if_neg hk]
    refine List.Nodup.append h (List.nodup_singleton k) ?_
    intro x hx hxk
    simp only [List.mem_singleton] at hxk
    exact hk (hxk ▸ hx)

theorem WFk_init (levels : List ℚ) (hl : ∀ p ∈ levels, 0 ≤ p ∧ p ≤ 100) :
    WFk (KPISet.init levels) := by
  exact ⟨hl, by simp [KPISet.init]⟩

theorem WFk_lookupD (m : List (String × KPISet)) (label : String) (levels : List ℚ)
    (hm : WFmap m) (hl : ∀ p ∈ levels, 0 ≤ p ∧ p ≤ 100) :
    WFk (lookupD m label (KPISet.init levels)) := by
  rcases lookupD_mem_or_default m label (KPISet.init levels) with h | h
  · rw [h]
    exact WFk_init levels hl
  · exact hm _ h

theorem mergeKpisMap_cons (levels : List ℚ) (sid : Option ℕ) (label : String)
    (val : KPISet) (rest dst : List (String × KPISet)) :
    mergeKpisMap levels sid ((label, val) :: rest) dst =
      match (lookupD dst label (KPISet.init levels)).merge_kpis val sid with
      | none => none
      | some dest' =>
        mergeKpisMap levels sid rest
          (assocSet (findOrCreate dst label (KPISet.init levels)).2 label dest') := by
  rw [show mergeKpisMap levels sid ((label, val) :: rest) dst =
      match (findOrCreate dst label (KPISet.init levels)).1.merge_kpis val sid with
      | none => none
      | some dest' =>
        mergeKpisMap levels sid rest
          (assocSet (findOrCreate dst label (KPISet.init levels)).2 label dest') from rfl]
  rw [findOrCreate_fst]

theorem WFmap_assocSet (m : List (String × KPISet)) (label : String) (v : KPISet)
    (hm : WFmap m) (hv : WFk v) : WFmap (assocSet m label v) := by
  intro e he
  rcases mem_assocSet _ _ _ _ he with h | h
  · exact hm e h
  · rw [h]
    exact hv

theorem WFmap_findOrCreate (m : List (String × KPISet)) (label : String) (levels : List ℚ)
    (hm : WFmap m) (hl : ∀ p ∈ levels, 0 ≤ p ∧ p ≤ 100) :
    WFmap (findOrCreate m label (KPISet.init levels)).2 := by
  intro e he
  rcases mem_findOrCreate _ _ _ _ he with h | h
  · exact hm e h
  · rw [h]
    exact WFk_init levels hl

/-- Characterization of `DataPoint.__merge_kpis` under well-formedness of
the incoming map: it succeeds, adds the incoming sample counts label-wise
into the destination, and preserves map well-formedness. -/
theorem mergeKpisMap_char (levels : List ℚ) (sid : Option ℕ)
    (hl : ∀ p ∈ levels, 0 ≤ p ∧ p ≤ 100) :
    ∀ (src dst : List (String × KPISet)), WFmap src → ((src.map Prod.fst).Nodup) →
      WFmap dst →
      ∃ out, mergeKpisMap levels sid src dst = some out ∧
        (∀ label, kpiCount out label = kpiCount dst label + kpiCount src label) ∧
        WFmap out ∧
        ((dst.map Prod.fst).Nodup → (out.map Prod.fst).Nodup) := by
  intro src
  induction src with
  | nil =>
    intro dst _ _ hWFdst
    refine ⟨dst, rfl, fun label => ?_, hWFdst, fun h => h⟩
    rw [kpiCount_absent [] label (by simp)]
    omega
  | cons hd rest ih =>
    obtain ⟨label0, val⟩ := hd
    intro dst hWFsrc hnd hWFdst
    have hWFval : WFk val := hWFsrc (label0, val) (List.mem_cons_self _ _)
    have hWFdest : WFk (lookupD dst label0 (KPISet.init levels)) :=
      WFk_lookupD dst label0 levels hWFdst hl
    obtain ⟨dest', hmerge⟩ :=
      merge_kpis_isSome_of (lookupD dst label0 (KPISet.init levels)) val sid hWFval
    have hWFdest' : WFk dest' := merge_kpis_WF _ _ _ _ hmerge hWFdest hWFval.2
    have hWFdst2 : WFmap (assocSet (findOrCreate dst label0 (KPISet.init levels)).2
        label0 dest') :=
      WFmap_assocSet _ _ _ (WFmap_findOrCreate dst label0 levels hWFdst hl) hWFdest'
    simp only [List.map_cons, List.nodup_cons] at hnd
    obtain ⟨out, hout, hcnt, hWFout, hndout⟩ :=
      ih (assocSet (findOrCreate dst label0 (KPISet.init levels)).2 label0 dest')
        (fun e he => hWFsrc e (List.mem_cons_of_mem _ he)) hnd.2 hWFdst2
    refine ⟨out, ?_, ?_, hWFout, fun hdnd => hndout
      (nodup_keys_assocSet _ _ _ (nodup_keys_findOrCreate _ _ _ hdnd))⟩
    · rw [mergeKpisMap_cons, hmerge]
      exact hout
    · intro label
      rw [hcnt label]
      by_cases hlab : label = label0
      · subst hlab
        rw [kpiCount_cons_self]
        have e1 : kpiCount (assocSet (findOrCreate dst label (KPISet.init levels)).2
            label dest') label = dest'.throughput := by
          rw [kpiCount, lookupD_assocSet_self]
        have e2 : kpiCount rest label = 0 := kpiCount_absent rest label hnd.1
        obtain ⟨m1, _⟩ := merge_kpis_fields _ _ _ _ hmerge
        rw [e1, e2, m1, kpiCount_lookupD]
        omega
      · have e1 : kpiCount (assocSet (findOrCreate dst label0 (KPISet.init levels)).2
            label0 dest') label = kpiCount dst label := by
          rw [kpiCount, lookupD_assocSet_ne _ _ _ _ _ hlab,
            lookupD_findOrCreate_ne _ _ _ _ _ hlab]
          rfl
        rw [e1, kpiCount_cons_ne _ _ _ _ hlab]

/-- Characterization of recalculating every `KPISet` of a label map: it
succeeds on well-formed maps, keeps the keys, the per-label sample counts
and well-formedness. -/
theorem recalcMap_char :
    ∀ (m : List (String × KPISet)), WFmap m →
      ∃ out, recalcMap m = some out ∧
        (∀ label, kpiCount out label = kpiCount m label) ∧
        WFmap out ∧ out.map Prod.fst = m.map Prod.fst := by
  intro m
  induction m with
  | nil => exact fun _ => ⟨[], rfl, fun label => rfl, fun e he => by simp at he, rfl⟩
  | cons hd rest ih =>
    obtain ⟨label0, k⟩ := hd
    intro hWF
    obtain ⟨k', hk'⟩ := recalculate_isSome k (hWF (label0, k) (List.mem_cons_self _ _))
    obtain ⟨out, hout, hcnt, hWFout, hkeys⟩ :=
      ih (fun e he => hWF e (List.mem_cons_of_mem _ he))
    refine ⟨(label0, k') :: out, ?_, ?_, ?_, by simp [hkeys]⟩
    · rw [show recalcMap ((label0, k) :: rest) =
          match k.recalculate with
          | none => none
          | some k2 =>
            match recalcMap rest with
            | none => none
            | some rest' => some ((label0, k2) :: rest') from rfl]
      rw [hk', hout]
    · intro label
      by_cases hlab : label = label0
      · subst hlab
        rw [kpiCount_cons_self, kpiCount_cons_self]
        exact (recalculate_fields k k' hk').1
      · rw [kpiCount_cons_ne _ _ _ _ hlab, kpiCount_cons_ne _ _ _ _ hlab]
        exact hcnt label
    · intro e he
      rcases List.mem_cons.mp he with h | h
      · rw [h]
        exact recalculate_WF k k' hk' (hWF (label0, k) (List.mem_cons_self _ _))
      · exact hWFout e h

/-- Characterization of `DataPoint.recalculate()`: on well-formed maps it
succeeds and preserves the timestamp, subresults, counts and
well-formedness. -/
theorem recalcAll_char (p : DataPoint) (hc : WFmap p.current) (hu : WFmap p.cumulative) :
    ∃ p', p.recalcAll = some p' ∧ p'.ts = p.ts ∧ p'.subresults = p.subresults ∧
      p'.perc_levels = p.perc_levels ∧ p'.source_id = p.source_id ∧
      (∀ label, kpiCount p'.current label = kpiCount p.current label) ∧
      (∀ label, kpiCount p'.cumulative label = kpiCount p.cumulative label) ∧
      WFmap p'.current ∧ WFmap p'.cumulative ∧
      p'.current.map Prod.fst = p.current.map Prod.fst ∧
      p'.cumulative.map Prod.fst = p.cumulative.map Prod.fst := by
  obtain ⟨cur', hcur, hcnt1, hWF1, hk1⟩ := recalcMap_char p.current hc
  obtain ⟨cum', hcum, hcnt2, hWF2, hk2⟩ := recalcMap_char p.cumulative hu
  refine ⟨.mk p.perc_levels p.source_id p.ts cum' cur' p.subresults, ?_,
    rfl, rfl, rfl, rfl, hcnt1, hcnt2, hWF1, hWF2, hk1, hk2⟩
  unfold DataPoint.recalcAll
  rw [hcur, hcum]

/-- Characterization of `DataPoint.merge_point(src)` under well-formedness:
it fails exactly on a timestamp mismatch (before mutating anything), and on
matching timestamps appends `src` to the subresults and adds `src`'s
label-wise sample counts into both views. -/
theorem merge_point_char (self src : DataPoint)
    (hWFc : WFmap src.current) (hWFu : WFmap src.cumulative)
    (hndc : (src.current.map Prod.fst).Nodup) (hndu : (src.cumulative.map Prod.fst).Nodup)
    (hWFsc : WFmap self.current) (hWFsu : WFmap self.cumulative)
    (hndsc : (self.current.map Prod.fst).Nodup) (hndsu : (self.cumulative.map Prod.fst).Nodup)
    (hlev : ∀ p ∈ self.perc_levels, 0 ≤ p ∧ p ≤ 100) :
    (self.ts ≠ src.ts → self.merge_point src = none) ∧
    (self.ts = src.ts → ∃ p, self.merge_point src = some p ∧
      p.ts = self.ts ∧ p.perc_levels = self.perc_levels ∧
      p.subresults = self.subresults ++ [src] ∧
      (∀ label, kpiCount p.current label =
        kpiCount self.current label + kpiCount src.current label) ∧
      (∀ label, kpiCount p.cumulative label =
        kpiCount self.cumulative label + kpiCount src.cumulative label) ∧
      WFmap p.current ∧ WFmap p.cumulative ∧
      (p.current.map Prod.fst).Nodup ∧ (p.cumulative.map Prod.fst).Nodup) := by
  constructor
  · intro hne
    unfold DataPoint.merge_point
    rw [if_pos hne]
  · intro heq
    obtain ⟨cur', hcur, hcnt1, hWF1, hnd1⟩ :=
      mergeKpisMap_char self.perc_levels src.source_id hlev src.current self.current
        hWFc hndc hWFsc
    obtain ⟨cum', hcum, hcnt2, hWF2, hnd2⟩ :=
      mergeKpisMap_char self.perc_levels src.source_id hlev src.cumulative self.cumulative
        hWFu hndu hWFsu
    have hmid : WFmap (DataPoint.mk self.perc_levels self.source_id self.ts cum' cur'
        (self.subresults ++ [src])).current := hWF1
    have hmidu : WFmap (DataPoint.mk self.perc_levels self.source_id self.ts cum' cur'
        (self.subresults ++ [src])).cumulative := hWF2
    obtain ⟨p', hp', hts, hsub, hpl, hsid, hc1, hc2, hW1, hW2, hk1, hk2⟩ :=
      recalcAll_char (DataPoint.mk self.perc_levels self.source_id self.ts cum' cur'
        (self.subresults ++ [src])) hmid hmidu
    refine ⟨p', ?_, hts.trans rfl, hpl.trans rfl, hsub.trans rfl, ?_, ?_, hW1, hW2,
      ?_, ?_⟩
    · unfold DataPoint.merge_point
      rw [if_neg (by simp [heq])]
      show (match mergeKpisMap self.perc_levels src.source_id src.current self.current with
        | none => none
        | some cur2 =>
          match mergeKpisMap self.perc_levels src.source_id src.cumulative self.cumulative with
          | none => none
          | some cum2 => (DataPoint.mk self.perc_levels self.source_id self.ts cum2 cur2
              (self.subresults ++ [src])).recalcAll) = some p'
      rw [hcur, hcum]
      exact hp'
    · intro label
      rw [hc1 label]
      exact hcnt1 label
    · intro label
      rw [hc2 label]
      exact hcnt2 label
    · rw [show (DataPoint.mk self.perc_levels self.source_id self.ts cum' cur'
          (self.subresults ++ [src])).current = cur' from rfl] at hk1
      rw [hk1]
      exact hnd1 hndsc
    · rw [show (DataPoint.mk self.perc_levels self.source_id self.ts cum' cur'
          (self.subresults ++ [src])).cumulative = cum' from rfl] at hk2
      rw [hk2]
      exact hnd2 hndsu

/-! ### Claim C8 -/

/-- Claim C8: under well-formed inputs, `DataPoint.merge_point(src)` fails
exactly when the timestamps differ — before any state is produced, so the
receiver is untouched on failure — and on equal timestamps appends `src` to
`subresults` and merges `src`'s `current` and `cumulative` label-wise into
the receiver's maps (shown on the per-label sample counts), recalculating
the result. -/
theorem claim_C8_merge_point (self src : DataPoint)
    (hWFc : WFmap src.current) (hWFu : WFmap src.cumulative)
    (hndc : (src.current.map Prod.fst).Nodup) (hndu : (src.cumulative.map Prod.fst).Nodup)
    (hWFsc : WFmap self.current) (hWFsu : WFmap self.cumulative)
    (hndsc : (self.current.map Prod.fst).Nodup)
    (hndsu : (self.cumulative.map Prod.fst).Nodup)
    (hlev : ∀ p ∈ self.perc_levels, 0 ≤ p ∧ p ≤ 100) :
    (self.merge_point src = none ↔ self.ts ≠ src.ts) ∧
    (self.ts = src.ts → ∃ p, self.merge_point src = some p ∧
      p.subresults = self.subresults ++ [src] ∧
      (∀ label, kpiCount p.current label =
        kpiCount self.current label + kpiCount src.current label) ∧
      (∀ label, kpiCount p.cumulative label =
        kpiCount self.cumulative label + kpiCount src.cumulative label)) := by
  obtain ⟨hne, heqc⟩ := merge_point_char self src hWFc hWFu hndc hndu hWFsc hWFsu
    hndsc hndsu hlev
  constructor
  · constructor
    · intro hnone
      intro heq
      obtain ⟨p, hp, -⟩ := heqc heq
      rw [hp] at hnone
      exact Option.noConfusion hnone
    · exact hne
  · intro heq
    obtain ⟨p, hp, -, -, hsub, hcnt1, hcnt2, -⟩ := heqc heq
    exact ⟨p, hp, hsub, hcnt1, hcnt2⟩

theorem claim_C8_merge_point_witness :
    ((DataPoint.init 5 []).merge_point (DataPoint.init 5 []) = none ↔ (5 : ℤ) ≠ 5) ∧
    ((5 : ℤ) = 5 → ∃ p, (DataPoint.init 5 []).merge_point (DataPoint.init 5 []) = some p ∧
      p.subresults = [] ++ [DataPoint.init 5 []] ∧
      (∀ label, kpiCount p.current label = kpiCount [] label + kpiCount [] label) ∧
      (∀ label, kpiCount p.cumulative label = kpiCount [] label + kpiCount [] label)) :=
  claim_C8_merge_point (DataPoint.init 5 []) (DataPoint.init 5 [])
    (by intro e he; simp [DataPoint.init, DataPoint.current] at he)
    (by intro e he; simp [DataPoint.init, DataPoint.cumulative] at he)
    (by simp [DataPoint.init, DataPoint.current])
    (by simp [DataPoint.init, DataPoint.cumulative])
    (by intro e he; simp [DataPoint.init, DataPoint.current] at he)
    (by intro e he; simp [DataPoint.init, DataPoint.cumulative] at he)
    (by simp [DataPoint.init, DataPoint.current])
    (by simp [DataPoint.init, DataPoint.cumulative])
    (by simp [DataPoint.init, DataPoint.perc_levels])


/-! ### Claim C5 -/

/-- Claim C5: a `ConsolidatingAggregator` holding, for timestamp `T`, one
buffered `DataPoint` from each of two sources whose overall (`""`) sample
count is 100, emits on the next (final) pull a single consolidated point
with overall sample count 200; each point's `current` is merged into the
long-lived cumulative exactly once, the deep copy attached as the point's
`cumulative` carries the same 200, and a subsequent pull with no new data
emits nothing and leaves the cumulative untouched. -/
theorem claim_C5_consolidation (T : ℤ) (levels : List ℚ) (blen : ℤ)
    (warns : List (ℤ × ℤ)) (dp1 dp2 : DataPoint) (k1 k2 : KPISet)
    (hlev : ∀ p ∈ levels, 0 ≤ p ∧ p ≤ 100)
    (hdp1 : dp1.ts = T) (hdp2 : dp2.ts = T)
    (hc1 : dp1.current = [("", k1)]) (hc2 : dp2.current = [("", k2)])
    (hu1 : dp1.cumulative = []) (hu2 : dp2.cumulative = [])
    (hk1 : WFk k1) (hk2 : WFk k2)
    (ht1 : k1.throughput = 100) (ht2 : k2.throughput = 100) :
    ∃ pt st',
      CState.datapoints ⟨[], levels, [(T, [dp1, dp2])], blen, warns⟩ true [] =
        some ([pt], st') ∧
      pt.ts = T ∧
      kpiCount pt.current "" = 200 ∧
      kpiCount pt.cumulative "" = 200 ∧
      kpiCount st'.cumulative "" = 200 ∧
      (∀ final, CState.datapoints st' final [] = some ([], st')) := by
  have hWM1 : WFmap dp1.current := by
    rw [hc1]
    intro e he
    simp only [List.mem_singleton] at he
    rw [he]
    exact hk1
  have hWM2 : WFmap dp2.current := by
    rw [hc2]
    intro e he
    simp only [List.mem_singleton] at he
    rw [he]
    exact hk2
  have hND1 : (dp1.current.map Prod.fst).Nodup := by rw [hc1]; simp
  have hND2 : (dp2.current.map Prod.fst).Nodup := by rw [hc2]; simp
  have hWU1 : WFmap dp1.cumulative := by rw [hu1]; intro e he; simp at he
  have hWU2 : WFmap dp2.cumulative := by rw [hu2]; intro e he; simp at he
  have hNU1 : (dp1.cumulative.map Prod.fst).Nodup := by rw [hu1]; simp
  have hNU2 : (dp2.cumulative.map Prod.fst).Nodup := by rw [hu2]; simp
  -- first merge: fresh point absorbs dp1
  obtain ⟨hne1, heqc1⟩ := merge_point_char (DataPoint.init T levels) dp1 hWM1 hWU1 hND1 hNU1
    (by intro e he; simp [DataPoint.init, DataPoint.current] at he)
    (by intro e he; simp [DataPoint.init, DataPoint.cumulative] at he)
    (by simp [DataPoint.init, DataPoint.current])
    (by simp [DataPoint.init, DataPoint.cumulative])
    (by simpa [DataPoint.init, DataPoint.perc_levels] using hlev)
  obtain ⟨p1, hp1, hts1, hpl1, hsub1, hcnt1c, hcnt1u, hWF1c, hWF1u, hnd1c, hnd1u⟩ :=
    heqc1 (by rw [hdp1]; rfl)
  have hts1' : p1.ts = T := by simpa [DataPoint.init, DataPoint.ts] using hts1
  have hpl1' : p1.perc_levels = levels := by
    simpa [DataPoint.init, DataPoint.perc_levels] using hpl1
  -- second merge: absorb dp2
  obtain ⟨hne2, heqc2⟩ := merge_point_char p1 dp2 hWM2 hWU2 hND2 hNU2
    hWF1c hWF1u hnd1c hnd1u (by rw [hpl1']; exact hlev)
  obtain ⟨p2, hp2, hts2, hpl2, hsub2, hcnt2c, hcnt2u, hWF2c, hWF2u, hnd2c, hnd2u⟩ :=
    heqc2 (by rw [hts1', hdp2])
  have hts2' : p2.ts = T := by rw [hts2, hts1']
  -- the explicit recalculate of the consolidated point
  obtain ⟨p3, hp3, hts3, hsub3, hpl3, hsid3, hcnt3c, hcnt3u, hWF3c, hWF3u, hk3c, hk3u⟩ :=
    recalcAll_char p2 hWF2c hWF2u
  have hts3' : p3.ts = T := by rw [hts3, hts2']
  have hnd3c : (p3.current.map Prod.fst).Nodup := by rw [hk3c]; exact hnd2c
  -- counts of the consolidated current
  have hcount3 : kpiCount p3.current "" = 200 := by
    rw [hcnt3c, hcnt2c, hcnt1c, hc1, hc2]
    rw [kpiCount_cons_self, kpiCount_cons_self, ht1, ht2]
    have h0 : kpiCount (DataPoint.init T levels).current "" = 0 := by
      rw [show (DataPoint.init T levels).current = [] from rfl]
      exact kpiCount_absent [] "" (by simp)
    rw [h0]
  -- the emission loop produces exactly p3
  have hfold : List.foldlM (fun acc sub => acc.merge_point sub)
      (DataPoint.init T levels) [dp1, dp2] = some p2 := by
    simp only [List.foldlM, hp1, Option.bind_eq_bind, Option.some_bind, hp2, Option.pure_def]
  have hlk : lookupD [(T, [dp1, dp2])] T ([] : List DataPoint) = [dp1, dp2] := by
    simp [lookupD]
  have hflt : ([(T, [dp1, dp2])] : List (ℤ × List DataPoint)).filter
      (fun kv => kv.1 ≠ T) = [] := by simp
  have hloop : cCalcLoop true blen levels [T] [(T, [dp1, dp2])] = some ([p3], []) := by
    show (match List.foldlM (fun acc sub => acc.merge_point sub) (DataPoint.init T levels)
          (lookupD [(T, [dp1, dp2])] T ([] : List DataPoint)) with
        | none => none
        | some point =>
          match point.recalcAll with
          | none => none
          | some point' =>
            match cCalcLoop true blen levels []
                (([(T, [dp1, dp2])] : List (ℤ × List DataPoint)).filter
                  (fun kv => kv.1 ≠ T)) with
            | none => none
            | some (dps, buf2) => some (point' :: dps, buf2)) = some ([p3], [])
    rw [hlk, hfold]
    show (match p2.recalcAll with
        | none => none
        | some point' =>
          match cCalcLoop true blen levels []
              (([(T, [dp1, dp2])] : List (ℤ × List DataPoint)).filter
                (fun kv => kv.1 ≠ T)) with
          | none => none
          | some (dps, buf2) => some (point' :: dps, buf2)) = some ([p3], [])
    rw [hp3, hflt]
    rfl
  -- the provider wrapper: merge into the (empty) long-lived cumulative
  obtain ⟨cums', hmerge, hcntM, hWFM, hndM⟩ :=
    mergeKpisMap_char levels none hlev p3.current [] hWF3c hnd3c
      (by intro e he; simp at he)
  have hcntM' : kpiCount cums' "" = 200 := by
    rw [hcntM "", kpiCount_absent [] "" (by simp), hcount3]
  obtain ⟨p4, hp4, hts4, hsub4, hpl4, hsid4, hcnt4c, hcnt4u, hWF4c, hWF4u, hk4c, hk4u⟩ :=
    recalcAll_char (.mk p3.perc_levels p3.source_id p3.ts cums' p3.current p3.subresults)
      (by exact hWF3c) (by exact hWFM)
  have hts4' : p4.ts = T := by rw [hts4]; exact hts3'
  have hcnt4c' : kpiCount p4.current "" = 200 := by rw [hcnt4c ""]; exact hcount3
  have hcnt4u' : kpiCount p4.cumulative "" = 200 := by rw [hcnt4u ""]; exact hcntM'
  have hprov : providerDatapoints levels [] [p3] = some ([p4], cums') := by
    show (match mergeKpisMap levels none p3.current [] with
        | none => none
        | some cums2 =>
          match (DataPoint.mk p3.perc_levels p3.source_id p3.ts cums2 p3.current
              p3.subresults).recalcAll with
          | none => none
          | some q =>
            match providerDatapoints levels cums2 [] with
            | none => none
            | some (out, cumsF) => some (q :: out, cumsF)) = some ([p4], cums')
    rw [hmerge]
    show (match (DataPoint.mk p3.perc_levels p3.source_id p3.ts cums' p3.current
            p3.subresults).recalcAll with
        | none => none
        | some q =>
          match providerDatapoints levels cums' [] with
          | none => none
          | some (out, cumsF) => some (q :: out, cumsF)) = some ([p4], cums')
    rw [hp4]
    rfl
  refine ⟨p4, ⟨cums', levels, [], blen, warns⟩, ?_, hts4', hcnt4c', hcnt4u', hcntM',
    fun _ => rfl⟩
  show (match cCalcLoop true blen levels
        (List.insertionSort (fun a b : ℤ => a ≤ b)
          (List.map Prod.fst ([(T, [dp1, dp2])] : List (ℤ × List DataPoint))))
        [(T, [dp1, dp2])] with
      | none => none
      | some (dps, buf2) =>
        match providerDatapoints levels [] dps with
        | none => none
        | some (out, cum2) =>
          some (out, (⟨cum2, levels, buf2, blen, warns⟩ : CState))) =
    some ([p4], (⟨cums', levels, [], blen, warns⟩ : CState))
  rw [show List.insertionSort (fun a b : ℤ => a ≤ b)
      (List.map Prod.fst ([(T, [dp1, dp2])] : List (ℤ × List DataPoint))) = [T] from rfl,
    hloop]
  show (match providerDatapoints levels [] [p3] with
      | none => none
      | some (out, cum2) =>
        some (out, (⟨cum2, levels, [], blen, warns⟩ : CState))) =
    some ([p4], (⟨cums', levels, [], blen, warns⟩ : CState))
  rw [hprov]

theorem claim_C5_consolidation_witness :
    ∃ pt st',
      CState.datapoints ⟨[], [],
          [(7, [DataPoint.mk [] none 7 [] [("", { throughput := 100 })] [],
                DataPoint.mk [] none 7 [] [("", { throughput := 100 })] []])], 2, []⟩
        true [] = some ([pt], st') ∧
      pt.ts = 7 ∧
      kpiCount pt.current "" = 200 ∧
      kpiCount pt.cumulative "" = 200 ∧
      kpiCount st'.cumulative "" = 200 ∧
      (∀ final, CState.datapoints st' final [] = some ([], st')) :=
  claim_C5_consolidation 7 [] 2 []
    (DataPoint.mk [] none 7 [] [("", { throughput := 100 })] [])
    (DataPoint.mk [] none 7 [] [("", { throughput := 100 })] [])
    { throughput := 100 } { throughput := 100 }
    (fun p hp => absurd hp (List.not_mem_nil p))
    rfl rfl rfl rfl rfl rfl
    ⟨fun p hp => absurd hp (List.not_mem_nil p),
     fun e he => absurd he (List.not_mem_nil e)⟩
    ⟨fun p hp => absurd hp (List.not_mem_nil p),
     fun e he => absurd he (List.not_mem_nil e)⟩
    rfl rfl

/-! ### Reader windowing machinery -/

theorem aggStep_WF (levels : List ℚ) (glabels : Bool) (cur : List (String × KPISet))
    (b : BufSample) (hl : ∀ p ∈ levels, 0 ≤ p ∧ p ≤ 100) (h : WFmap cur) :
    WFmap (aggStep levels glabels cur b) := by
  unfold aggStep
  refine WFmap_assocSet _ _ _ (WFmap_findOrCreate _ _ _ h hl) ?_
  refine add_sample_WF _ _ ?_
  rw [findOrCreate_fst]
  exact WFk_lookupD _ _ _ h hl

theorem aggFold_WF (levels : List ℚ) (glabels : Bool)
    (hl : ∀ p ∈ levels, 0 ≤ p ∧ p ≤ 100) :
    ∀ (samples : List BufSample) (cur : List (String × KPISet)), WFmap cur →
      WFmap (samples.foldl (aggStep levels glabels) cur) := by
  intro samples
  induction samples with
  | nil => intro cur h; exact h
  | cons b rest ih =>
    intro cur h
    rw [List.foldl_cons]
    exact ih _ (aggStep_WF levels glabels cur b hl h)

theorem mergeAll_isSome (sid : Option ℕ) :
    ∀ (ks : List KPISet) (acc : KPISet), (∀ k ∈ ks, WFk k) →
      ∃ out, mergeAll sid acc ks = some out := by
  intro ks
  induction ks with
  | nil => intro acc _; exact ⟨acc, rfl⟩
  | cons k rest ih =>
    intro acc h
    obtain ⟨m, hm⟩ := merge_kpis_isSome_of acc k sid (h k (List.mem_cons_self _ _))
    obtain ⟨out, hout⟩ := ih m (fun x hx => h x (List.mem_cons_of_mem _ hx))
    refine ⟨out, ?_⟩
    show (match acc.merge_kpis k sid with
        | none => none
        | some acc2 => mergeAll sid acc2 rest) = some out
    rw [hm]
    exact hout

theorem aggregateCurrent_isSome (levels : List ℚ) (glabels : Bool) (sid : Option ℕ)
    (samples : List BufSample) (hl : ∀ p ∈ levels, 0 ≤ p ∧ p ≤ 100) :
    ∃ cur, aggregateCurrent levels glabels sid samples = some cur := by
  have hWF : WFmap (samples.foldl (aggStep levels glabels) []) :=
    aggFold_WF levels glabels hl samples [] (by intro e he; simp at he)
  obtain ⟨overall, hov⟩ := mergeAll_isSome sid
    ((samples.foldl (aggStep levels glabels) []).map Prod.snd) (KPISet.init levels)
    (fun k hk => by
      obtain ⟨e, he, hek⟩ := List.mem_map.mp hk
      exact hek ▸ hWF e he)
  refine ⟨assocSet (samples.foldl (aggStep levels glabels) []) "" overall, ?_⟩
  show (match mergeAll sid (KPISet.init levels)
        ((samples.foldl (aggStep levels glabels) []).map Prod.snd) with
      | none => none
      | some overall => some (assocSet (samples.foldl (aggStep levels glabels) []) "" overall)) =
    some (assocSet (samples.foldl (aggStep levels glabels) []) "" overall)
  rw [hov]

theorem getLastD_default_irrel (l : List ℤ) (a b : ℤ) (h : l ≠ []) :
    l.getLastD a = l.getLastD b := by
  rw [List.getLastD_eq_getLast?, List.getLastD_eq_getLast?]
  cases hq : l.getLast? with
  | none => exact absurd (List.getLast?_eq_none_iff.mp hq) h
  | some x => rfl

theorem emitKeys_final (blen : ℤ) : ∀ (tss : List ℤ), emitKeys true blen tss = tss := by
  intro tss
  induction tss with
  | nil => rfl
  | cons t rest ih =>
    show (if true ∨ ((t :: rest).getLastD t ≥ t + blen) then t :: emitKeys true blen rest
        else []) = t :: rest
    rw [if_pos (Or.inl rfl), ih]

theorem filter_not_mem_nil (buf : List (ℤ × List BufSample)) :
    buf.filter (fun kv => kv.1 ∉ ([] : List ℤ)) = buf :=
  List.filter_eq_self.mpr (fun a _ => by simp)

/-- Full characterization of the reader emission loop: it always succeeds
(under well-formed percentile levels), pops exactly the `emitKeys` prefix of
the key list, filters those buckets out of the buffer, and advances the
watermark to one past the last popped key. -/
theorem rCalcLoop_master (final : Bool) (blen : ℤ) (levels : List ℚ) (glabels : Bool)
    (sid : ℕ) (hl : ∀ p ∈ levels, 0 ≤ p ∧ p ≤ 100) :
    ∀ (tss : List ℤ) (buf : List (ℤ × List BufSample)) (mts : ℤ),
      ∃ dps buf' mts',
        rCalcLoop final blen levels glabels sid tss buf mts = some (dps, buf', mts') ∧
        dps.map (fun dp => dp.ts) = emitKeys final blen tss ∧
        buf' = buf.filter (fun kv => kv.1 ∉ emitKeys final blen tss) ∧
        mts' = (if emitKeys final blen tss = [] then mts
                else (emitKeys final blen tss).getLastD 0 + 1) := by
  intro tss
  induction tss with
  | nil =>
    intro buf mts
    refine ⟨[], buf, mts, rfl, rfl, ?_, rfl⟩
    rw [show emitKeys final blen [] = [] from rfl, filter_not_mem_nil]
  | cons t rest ih =>
    intro buf mts
    by_cases hc : (final = true) ∨ ((t :: rest).getLastD t ≥ t + blen)
    · -- the head bucket is popped
      have hek : emitKeys final blen (t :: rest) = t :: emitKeys final blen rest := by
        show (if final ∨ ((t :: rest).getLastD t ≥ t + blen)
            then t :: emitKeys final blen rest else []) = t :: emitKeys final blen rest
        rw [if_pos hc]
      obtain ⟨cur, hcur⟩ := aggregateCurrent_isSome levels glabels (some sid)
        (lookupD buf t []) hl
      cases rest with
      | nil =>
        refine ⟨[DataPoint.mk levels (some sid) t [] cur []],
          buf.filter (fun kv => kv.1 ≠ t), t + 1, ?_, ?_, ?_, ?_⟩
        · show (if final ∨ (([t] : List ℤ).getLastD t ≥ t + blen) then
              match aggregateCurrent levels glabels (some sid) (lookupD buf t []) with
              | none => none
              | some cur =>
                some ([DataPoint.mk levels (some sid) t [] cur []],
                  buf.filter (fun kv => kv.1 ≠ t), t + 1)
            else some ([], buf, mts)) =
            some ([DataPoint.mk levels (some sid) t [] cur []],
              buf.filter (fun kv => kv.1 ≠ t), t + 1)
          rw [if_pos hc, hcur]
        · rw [hek]
          rfl
        · rw [hek]
          apply List.filter_congr
          intro kv _
          simp [emitKeys]
        · rw [hek]
          simp [emitKeys]
      | cons r rs =>
        obtain ⟨dps, buf', mts', hrec, hmap, hbuf, hmts⟩ :=
          ih (buf.filter (fun kv => kv.1 ≠ t)) (t + 1)
        refine ⟨DataPoint.mk levels (some sid) t [] cur [] :: dps, buf', mts', ?_, ?_, ?_, ?_⟩
        · show (if final ∨ ((t :: r :: rs).getLastD t ≥ t + blen) then
              match aggregateCurrent levels glabels (some sid) (lookupD buf t []) with
              | none => none
              | some cur =>
                match rCalcLoop final blen levels glabels sid (r :: rs)
                    (buf.filter (fun kv => kv.1 ≠ t)) (t + 1) with
                | none => none
                | some (dps, buf2, mts2) =>
                  some (DataPoint.mk levels (some sid) t [] cur [] :: dps, buf2, mts2)
            else some ([], buf, mts)) =
            some (DataPoint.mk levels (some sid) t [] cur [] :: dps, buf', mts')
          rw [if_pos hc, hcur, hrec]
        · rw [hek, List.map_cons, hmap]
          rfl
        · rw [hek, hbuf, List.filter_filter]
          apply List.filter_congr
          intro kv _
          simp only [List.mem_cons, not_or, decide_not, Bool.decide_and]
          cases h1 : decide (kv.1 = t) <;> cases h2 : decide (kv.1 ∈ emitKeys final blen (r :: rs)) <;> simp_all
        · rw [hek, hmts]
          cases hrek : emitKeys final blen (r :: rs) with
          | nil => rw [if_pos rfl, if_neg (by simp)]; rfl
          | cons e es =>
            rw [if_neg (by simp), if_neg (by simp)]
            rw [show ((t :: e :: es).getLastD 0) = ((e :: es).getLastD t) from
              List.getLastD_cons _ _ _]
            exact congrArg (· + 1) (getLastD_default_irrel (e :: es) 0 t (by simp))
    · -- loop guard fails: nothing is popped
      have hek : emitKeys final blen (t :: rest) = [] := by
        show (if final ∨ ((t :: rest).getLastD t ≥ t + blen)
            then t :: emitKeys final blen rest else []) = []
        rw [if_neg hc]
      refine ⟨[], buf, mts, ?_, ?_, ?_, ?_⟩
      · show (if final ∨ ((t :: rest).getLastD t ≥ t + blen) then
            match aggregateCurrent levels glabels (some sid) (lookupD buf t []) with
            | none => none
            | some cur =>
              match rest with
              | [] => some ([DataPoint.mk levels (some sid) t [] cur []],
                  buf.filter (fun kv => kv.1 ≠ t), t + 1)
              | _ :: _ =>
                match rCalcLoop final blen levels glabels sid rest
                    (buf.filter (fun kv => kv.1 ≠ t)) (t + 1) with
                | none => none
                | some (dps, buf2, mts2) =>
                  some (DataPoint.mk levels (some sid) t [] cur [] :: dps, buf2, mts2)
          else some ([], buf, mts)) = some ([], buf, mts)
        rw [if_neg hc]
      · rw [hek]
        rfl
      · rw [hek, filter_not_mem_nil]
      · rw [hek]
        rfl

/-- Characterization of `_calculate_datapoints` on a state whose processed
buffer (`st1`) is nonempty: it succeeds, emits exactly the buckets
`emitKeys` selects from the sorted key list, removes them from the buffer,
advances the watermark past the last popped key, and leaves every other
field untouched. -/
theorem calculateDatapoints_master (st st1 : RState) (final : Bool)
    (incoming : List RawResult) (tss : List ℤ)
    (hst1 : processReaders st incoming = st1)
    (hl : ∀ p ∈ st1.track_percentiles, 0 ≤ p ∧ p ≤ 100)
    (hne : st1.buffer ≠ [])
    (htss : tss = List.insertionSort (fun a b : ℤ => a ≤ b) (st1.buffer.map Prod.fst)) :
    ∃ dps st',
      st.calculateDatapoints final incoming = some (dps, st') ∧
      dps.map (fun dp => dp.ts) = emitKeys final st1.buffer_len tss ∧
      st'.buffer = st1.buffer.filter (fun kv => kv.1 ∉ emitKeys final st1.buffer_len tss) ∧
      st'.min_timestamp = (if emitKeys final st1.buffer_len tss = [] then st1.min_timestamp
        else (emitKeys final st1.buffer_len tss).getLastD 0 + 1) ∧
      st'.generalize_labels = st1.generalize_labels ∧
      st'.ignored_labels = st1.ignored_labels ∧
      st'.buffer_len = st1.buffer_len ∧
      st'.track_percentiles = st1.track_percentiles ∧
      st'.source_id = st1.source_id ∧
      st'.warnings = st1.warnings := by
  subst hst1
  subst htss
  obtain ⟨dps, buf', mts', hrun, hmap, hbuf, hmts⟩ :=
    rCalcLoop_master final (processReaders st incoming).buffer_len
      (processReaders st incoming).track_percentiles
      (processReaders st incoming).generalize_labels
      (processReaders st incoming).source_id hl
      (List.insertionSort (fun a b : ℤ => a ≤ b)
        ((processReaders st incoming).buffer.map Prod.fst))
      (processReaders st incoming).buffer
      (processReaders st incoming).min_timestamp
  refine ⟨dps,
    { processReaders st incoming with buffer := buf', min_timestamp := mts' },
    ?_, hmap, hbuf, hmts, rfl, rfl, rfl, rfl, rfl, rfl⟩
  have h1 : st.calculateDatapoints final incoming =
      (if (processReaders st incoming).buffer = []
        then some ([], processReaders st incoming)
        else
          match rCalcLoop final (processReaders st incoming).buffer_len
              (processReaders st incoming).track_percentiles
              (processReaders st incoming).generalize_labels
              (processReaders st incoming).source_id
              (List.insertionSort (fun a b : ℤ => a ≤ b)
                ((processReaders st incoming).buffer.map Prod.fst))
              (processReaders st incoming).buffer
              (processReaders st incoming).min_timestamp with
          | none => none
          | some (dps, buf', mts') =>
            some (dps, { processReaders st incoming with
              buffer := buf', min_timestamp := mts' })) := rfl
  rw [h1, if_neg hne, hrun]

theorem sortedInt_head_le (l : List ℤ) (hs : l.Sorted (fun a b : ℤ => a ≤ b)) :
    ∀ a ∈ l, l.headD 0 ≤ a := by
  cases l with
  | nil => intro a ha; exact absurd ha (List.not_mem_nil a)
  | cons h t =>
    intro a ha
    rcases List.mem_cons.mp ha with rfl | hat
    · exact le_refl a
    · exact (List.sorted_cons.mp hs).1 a hat

theorem sortedInt_le_getLastD (l : List ℤ) (hs : l.Sorted (fun a b : ℤ => a ≤ b)) :
    ∀ a ∈ l, a ≤ l.getLastD 0 := by
  induction l with
  | nil => intro a ha; exact absurd ha (List.not_mem_nil a)
  | cons h t ih =>
    intro a ha
    obtain ⟨hrel, hst⟩ := List.sorted_cons.mp hs
    cases ht : t with
    | nil =>
      rw [ht] at ha
      simp only [List.mem_singleton] at ha
      simp [ha]
    | cons b t2 =>
      rw [List.getLastD_cons, getLastD_default_irrel (b :: t2) h 0 (by simp)]
      rcases List.mem_cons.mp ha with rfl | hat
      · exact hrel _ (ht ▸ getLastD_mem t 0 (by simp [ht]))
      · rw [← ht]
        exact ih hst a (ht ▸ hat)

/-! ### Claim C6 -/

/-- Claim C6: in a non-final pull the reader emits the bucket at the oldest
buffered timestamp if and only if the maximum buffered timestamp is at least
the minimum buffered timestamp plus `buffer_len`, while a final-flush pull
emits every remaining bucket regardless of window width; concretely, with
`buffer_len = 2` and samples at timestamps 10, 10, 11, a non-final pull
emits nothing, after a sample at timestamp 13 arrives a non-final pull
emits buckets 10 and 11 (since 13 ≥ 10+2 and 13 ≥ 11+2) and keeps bucket
13, and a final flush from the same buffered state also emits buckets 10
and 11. -/
theorem claim_C6_windowing (st : RState) (mn mx : ℤ)
    (hl : ∀ p ∈ st.track_percentiles, 0 ≤ p ∧ p ≤ 100)
    (hne : st.buffer ≠ [])
    (hmn : mn = (List.insertionSort (fun a b : ℤ => a ≤ b)
      (st.buffer.map Prod.fst)).headD 0)
    (hmx : mx = (List.insertionSort (fun a b : ℤ => a ≤ b)
      (st.buffer.map Prod.fst)).getLastD 0) :
    (mn ∈ st.buffer.map Prod.fst ∧ mx ∈ st.buffer.map Prod.fst ∧
      ∀ k ∈ st.buffer.map Prod.fst, mn ≤ k ∧ k ≤ mx) ∧
    (∃ dps st', st.calculateDatapoints false [] = some (dps, st') ∧
      ((∃ dp ∈ dps, dp.ts = mn) ↔ mn + st.buffer_len ≤ mx) ∧
      (mx < mn + st.buffer_len → dps = [] ∧ st'.buffer = st.buffer ∧
        st'.min_timestamp = st.min_timestamp)) ∧
    (∃ dps st', st.calculateDatapoints true [] = some (dps, st') ∧
      dps.map (fun dp => dp.ts) =
        List.insertionSort (fun a b : ℤ => a ≤ b) (st.buffer.map Prod.fst) ∧
      st'.buffer = []) ∧
    (stW0.calculateDatapoints false [sampW 10, sampW 10, sampW 11] =
      some ([], stWA)) ∧
    (∃ dps st', stWA.calculateDatapoints false [sampW 13] = some (dps, st') ∧
      dps.map (fun dp => dp.ts) = [10, 11] ∧ st'.buffer.map Prod.fst = [13]) ∧
    (∃ dps st', stWA.calculateDatapoints true [] = some (dps, st') ∧
      dps.map (fun dp => dp.ts) = [10, 11] ∧ st'.buffer = []) := by
  set tss : List ℤ :=
    List.insertionSort (fun a b : ℤ => a ≤ b) (st.buffer.map Prod.fst) with htss
  have hperm : tss.Perm (st.buffer.map Prod.fst) := List.perm_insertionSort _ _
  have hsort : tss.Sorted (fun a b : ℤ => a ≤ b) := List.sorted_insertionSort _ _
  have hmapne : st.buffer.map Prod.fst ≠ [] := fun h => hne (List.map_eq_nil_iff.mp h)
  have htne : tss ≠ [] := fun h => hmapne ((h ▸ hperm).symm.eq_nil)
  obtain ⟨h0, ttail, htt⟩ : ∃ h0 t, tss = h0 :: t := by
    cases hc : tss with
    | nil => exact absurd hc htne
    | cons a t => exact ⟨a, t, rfl⟩
  have hmn' : mn = h0 := by rw [hmn, htt]; rfl
  have hlast : (h0 :: ttail).getLastD h0 = mx := by
    rw [hmx, htt]
    exact getLastD_default_irrel _ h0 0 (by simp)
  refine ⟨?_, ?_, ?_, ?_, ?_, ?_⟩
  · -- mn and mx really are the minimum and maximum buffered timestamps
    refine ⟨hperm.mem_iff.mp ?_, hperm.mem_iff.mp ?_, ?_⟩
    · rw [hmn', htt]
      exact List.mem_cons_self _ _
    · rw [hmx]
      exact getLastD_mem tss 0 htne
    · intro k hk
      have hkt : k ∈ tss := hperm.mem_iff.mpr hk
      exact ⟨hmn ▸ sortedInt_head_le tss hsort k hkt,
        hmx ▸ sortedInt_le_getLastD tss hsort k hkt⟩
  · -- non-final pull: oldest bucket emitted iff mx ≥ mn + buffer_len
    obtain ⟨dps, st', heq, hmapE, hbufE, hmtsE, -, -, -, -, -, -⟩ :=
      calculateDatapoints_master st st false [] tss rfl hl hne htss
    have hekpos : mn + st.buffer_len ≤ mx →
        emitKeys false st.buffer_len tss =
          h0 :: emitKeys false st.buffer_len ttail := by
      intro hge
      rw [htt]
      simp only [emitKeys]
      rw [if_pos (Or.inr (by rw [ge_iff_le, hlast, ← hmn']; exact hge))]
    have hekneg : ¬ (mn + st.buffer_len ≤ mx) →
        emitKeys false st.buffer_len tss = [] := by
      intro hlt
      rw [htt]
      simp only [emitKeys]
      rw [if_neg (not_or.mpr ⟨by simp,
        fun hc => hlt (by rw [hmn', ← hlast]; exact hc)⟩)]
    refine ⟨dps, st', heq, ?_, ?_⟩
    · constructor
      · rintro ⟨dp, hdp, hdpts⟩
        by_contra hlt
        rw [hekneg hlt] at hmapE
        rw [List.map_eq_nil_iff] at hmapE
        rw [hmapE] at hdp
        exact absurd hdp (List.not_mem_nil dp)
      · intro hge
        rw [hekpos hge] at hmapE
        cases hdps : dps with
        | nil =>
          rw [hdps] at hmapE
          exact absurd hmapE.symm (List.cons_ne_nil _ _)
        | cons d ds =>
          rw [hdps] at hmapE
          simp only [List.map_cons, List.cons.injEq] at hmapE
          exact ⟨d, List.mem_cons_self _ _, hmn' ▸ hmapE.1⟩
    · intro hlt
      have hek := hekneg (not_le.mpr hlt)
      rw [hek] at hmapE hbufE hmtsE
      refine ⟨List.map_eq_nil_iff.mp hmapE, ?_, ?_⟩
      · rw [hbufE, filter_not_mem_nil]
      · rw [hmtsE, if_pos rfl]
  · -- final flush: every remaining bucket is emitted
    obtain ⟨dps, st', heq, hmapE, hbufE, -, -, -, -, -, -, -⟩ :=
      calculateDatapoints_master st st true [] tss rfl hl hne htss
    refine ⟨dps, st', heq, by rw [hmapE, emitKeys_final], ?_⟩
    rw [hbufE, emitKeys_final]
    refine List.filter_eq_nil_iff.mpr (fun kv hkv => ?_)
    simp only [decide_eq_true_eq, not_not]
    exact hperm.mem_iff.mpr (List.mem_map_of_mem Prod.fst hkv)
  · -- scenario: buffered 10, 10, 11 with window 2 emits nothing yet
    rfl
  · -- scenario: once 13 arrives, buckets 10 and 11 are emitted, 13 kept
    obtain ⟨dps, st', heq, hmapE, hbufE, -, -, -, -, -, -, -⟩ :=
      calculateDatapoints_master stWA
        { buffer := [(10, [(sampW 10).toBufSample, (sampW 10).toBufSample]),
                     (11, [(sampW 11).toBufSample]),
                     (13, [(sampW 13).toBufSample])] }
        false [sampW 13] [10, 11, 13] rfl
        (fun p hp => absurd hp (List.not_mem_nil p))
        (List.cons_ne_nil _ _) rfl
    refine ⟨dps, st', heq, ?_, ?_⟩
    · exact hmapE.trans rfl
    · rw [hbufE]
      rfl
  · -- scenario: a final flush from the same buffered state emits 10 and 11
    obtain ⟨dps, st', heq, hmapE, hbufE, -, -, -, -, -, -, -⟩ :=
      calculateDatapoints_master stWA stWA true [] [10, 11] rfl
        (fun p hp => absurd hp (List.not_mem_nil p))
        (List.cons_ne_nil _ _) rfl
    refine ⟨dps, st', heq, ?_, ?_⟩
    · exact hmapE.trans rfl
    · rw [hbufE]
      rfl

theorem claim_C6_windowing_witness :
    ((10 : ℤ) ∈ stWA.buffer.map Prod.fst ∧ (11 : ℤ) ∈ stWA.buffer.map Prod.fst ∧
      ∀ k ∈ stWA.buffer.map Prod.fst, (10 : ℤ) ≤ k ∧ k ≤ 11) ∧
    (∃ dps st', stWA.calculateDatapoints false [] = some (dps, st') ∧
      ((∃ dp ∈ dps, dp.ts = 10) ↔ 10 + stWA.buffer_len ≤ 11) ∧
      ((11 : ℤ) < 10 + stWA.buffer_len → dps = [] ∧ st'.buffer = stWA.buffer ∧
        st'.min_timestamp = stWA.min_timestamp)) ∧
    (∃ dps st', stWA.calculateDatapoints true [] = some (dps, st') ∧
      dps.map (fun dp => dp.ts) =
        List.insertionSort (fun a b : ℤ => a ≤ b) (stWA.buffer.map Prod.fst) ∧
      st'.buffer = []) ∧
    (stW0.calculateDatapoints false [sampW 10, sampW 10, sampW 11] =
      some ([], stWA)) ∧
    (∃ dps st', stWA.calculateDatapoints false [sampW 13] = some (dps, st') ∧
      dps.map (fun dp => dp.ts) = [10, 11] ∧ st'.buffer.map Prod.fst = [13]) ∧
    (∃ dps st', stWA.calculateDatapoints true [] = some (dps, st') ∧
      dps.map (fun dp => dp.ts) = [10, 11] ∧ st'.buffer = []) :=
  claim_C6_windowing stWA 10 11
    (fun p hp => absurd hp (List.not_mem_nil p))
    (List.cons_ne_nil _ _) rfl rfl

/-! ### Claim C7 -/

theorem lookupD_bufAppend_self [DecidableEq κ] (m : List (κ × List β)) (t : κ) (x : β) :
    lookupD (bufAppend m t x) t [] = lookupD m t [] ++ [x] := by
  show lookupD (assocSet (findOrCreate m t []).2 t ((findOrCreate m t []).1 ++ [x])) t []
    = lookupD m t [] ++ [x]
  rw [lookupD_assocSet_self, findOrCreate_fst]

theorem lookupD_bufAppend_ne [DecidableEq κ] (m : List (κ × List β)) (t t' : κ) (x : β)
    (h : t' ≠ t) : lookupD (bufAppend m t x) t' [] = lookupD m t' [] := by
  show lookupD (assocSet (findOrCreate m t []).2 t ((findOrCreate m t []).1 ++ [x])) t' []
    = lookupD m t' []
  rw [lookupD_assocSet_ne _ _ _ _ _ h, lookupD_findOrCreate_ne _ _ _ _ _ h]

theorem rstate_ext (a b : RState)
    (h1 : a.generalize_labels = b.generalize_labels)
    (h2 : a.ignored_labels = b.ignored_labels)
    (h3 : a.buffer = b.buffer) (h4 : a.buffer_len = b.buffer_len)
    (h5 : a.min_timestamp = b.min_timestamp)
    (h6 : a.track_percentiles = b.track_percentiles)
    (h7 : a.source_id = b.source_id) (h8 : a.warnings = b.warnings) : a = b := by
  cases a
  cases b
  simp_all

/-- Claim C7: a raw sample whose timestamp lies below the watermark
`min_timestamp` is recorded in the bucket at the watermark timestamp — its
own bucket is untouched — with a late-arrival warning logged and the sample
never dropped; and since emitting the bucket for timestamp `t` advances the
watermark to `t + 1`, a sample timestamped 5 arriving after bucket 7 was
emitted (watermark 8) lands in bucket 8, not bucket 5. -/
theorem claim_C7_clamping (st : RState) (r : RawResult)
    (hni : r.label ∉ st.ignored_labels)
    (hlt : r.t_stamp < st.min_timestamp) :
    ((processReaders st [r]).warnings =
        st.warnings ++ [(r.t_stamp, st.min_timestamp)] ∧
      lookupD (processReaders st [r]).buffer st.min_timestamp [] =
        lookupD st.buffer st.min_timestamp [] ++ [r.toBufSample] ∧
      (∀ t, t ≠ st.min_timestamp →
        lookupD (processReaders st [r]).buffer t [] = lookupD st.buffer t []) ∧
      (processReaders st [r]).min_timestamp = st.min_timestamp) ∧
    (∃ dps stE, stW0.calculateDatapoints true [sampW 7] = some (dps, stE) ∧
      dps.map (fun dp => dp.ts) = [7] ∧ stE.min_timestamp = 8 ∧
      stE.calculateDatapoints false [sampW 5] =
        some ([], ⟨true, [], [(8, [(sampW 5).toBufSample])], 2, 8, [], 0, [(5, 8)]⟩)) := by
  have h1 : processReaders st [r] =
      { st with warnings := st.warnings ++ [(r.t_stamp, st.min_timestamp)],
                buffer := bufAppend st.buffer st.min_timestamp r.toBufSample } := by
    show (if r.label ∈ st.ignored_labels then st
        else
          { st with
            warnings := if r.t_stamp < st.min_timestamp then
                st.warnings ++ [(r.t_stamp, st.min_timestamp)] else st.warnings,
            buffer := bufAppend st.buffer
              (if r.t_stamp < st.min_timestamp then st.min_timestamp else r.t_stamp)
              r.toBufSample }) =
      { st with warnings := st.warnings ++ [(r.t_stamp, st.min_timestamp)],
                buffer := bufAppend st.buffer st.min_timestamp r.toBufSample }
    rw [if_neg hni, if_pos hlt, if_pos hlt]
  refine ⟨⟨?_, ?_, ?_, ?_⟩, ?_⟩
  · rw [h1]
  · rw [h1]
    exact lookupD_bufAppend_self st.buffer st.min_timestamp r.toBufSample
  · intro t ht
    rw [h1]
    exact lookupD_bufAppend_ne st.buffer st.min_timestamp t r.toBufSample ht
  · rw [h1]
  · obtain ⟨dps, stE, heq, hmap, hbuf, hmts, hg, hi, hbl, htp, hsi, hw⟩ :=
      calculateDatapoints_master stW0
        ⟨true, [], [(7, [(sampW 7).toBufSample])], 2, 0, [], 0, []⟩
        true [sampW 7] [7] rfl
        (fun p hp => absurd hp (List.not_mem_nil p))
        (List.cons_ne_nil _ _) rfl
    have hE : stE = ⟨true, [], [], 2, 8, [], 0, []⟩ :=
      rstate_ext _ _ hg hi hbuf hbl hmts htp hsi hw
    rw [hE] at heq
    exact ⟨dps, ⟨true, [], [], 2, 8, [], 0, []⟩, heq, hmap, rfl, rfl⟩

theorem claim_C7_clamping_witness :
    (((processReaders ⟨true, [], [], 2, 8, [], 0, []⟩ [sampW 5]).warnings =
        [] ++ [(5, 8)] ∧
      lookupD (processReaders ⟨true, [], [], 2, 8, [], 0, []⟩ [sampW 5]).buffer 8 [] =
        lookupD [] 8 [] ++ [(sampW 5).toBufSample] ∧
      (∀ t, t ≠ (8 : ℤ) →
        lookupD (processReaders ⟨true, [], [], 2, 8, [], 0, []⟩ [sampW 5]).buffer t [] =
          lookupD [] t []) ∧
      (processReaders ⟨true, [], [], 2, 8, [], 0, []⟩ [sampW 5]).min_timestamp = 8) ∧
    (∃ dps stE, stW0.calculateDatapoints true [sampW 7] = some (dps, stE) ∧
      dps.map (fun dp => dp.ts) = [7] ∧ stE.min_timestamp = 8 ∧
      stE.calculateDatapoints false [sampW 5] =
        some ([], ⟨true, [], [(8, [(sampW 5).toBufSample])], 2, 8, [], 0, [(5, 8)]⟩))) :=
  claim_C7_clamping ⟨true, [], [], 2, 8, [], 0, []⟩ (sampW 5)
    (List.not_mem_nil _) (by decide)

/-! ### Claim C9 -/

/-- Claim C9 counterexample: under the default rule set, `"/item/42"`
normalizes to `"/item/U"` — the second rule `\b[0-9a-fA-F]{2,}\b → "U"`
already swallows the digit run `42` (digits are hex characters), so the
digit rule `\b\d{2,}\b → "N"` never sees it — contradicting the claimed
`"/item/N"` token form. -/
theorem claim_C9_counterexample :
    generalizeLabel "/item/42" = "/item/U" ∧ "/item/U" ≠ "/item/N" := by
  constructor
  · decide
  · decide

/-- Claim C9 (amended): under the default rule set the ordered passes are
UUID-shaped substrings → `U`, then hexadecimal runs of **2 or more**
characters → `U` (this includes every digit run of 2+, since digits are hex
characters), then remaining digit runs of 2+ → `N` (by then none remain).
Both UUID labels collapse to the same `"/user/U"`, an 8+-character hex
identifier collapses to `U`, a 2-character hex run already collapses too,
and `"/item/42"` normalizes to `"/item/U"`, not `"/item/N"`. -/
theorem claim_C9_label_generalization :
    generalizeLabel "/user/3F2504E0-4F89-11D3-9A0C-0305E82C3301" = "/user/U" ∧
    generalizeLabel "/user/550E8400-E29B-41D4-A716-446655440000" = "/user/U" ∧
    generalizeLabel "/user/3F2504E0-4F89-11D3-9A0C-0305E82C3301" =
      generalizeLabel "/user/550E8400-E29B-41D4-A716-446655440000" ∧
    generalizeLabel "/x/DEADBEEF" = "/x/U" ∧
    generalizeLabel "/x/ab" = "/x/U" ∧
    generalizeLabel "/item/42" = "/item/U" := by
  refine ⟨by decide, by decide, ?_, by decide, by decide, by decide⟩
  decide

/-! ### Claim C10 -/

/-- Claim C10 counterexample: a row with `Connect = 5000` ms and
`Latency = 3000` ms — connect time **larger** than latency — is passed
through with its latency unchanged at 3 seconds: the code's guard is
`if cnn < ltc` (connect **smaller** than latency), so no subtraction
happens in exactly the case the claim describes. -/
theorem claim_C10_counterexample :
    (readRow false ⟨"l", 1, 1, "t", 1000, 3000, some 5000, "200", "true",
      "OK", 1000⟩).latency = 3 ∧ (3 : ℚ) ≠ 3 - 5 := by
  constructor
  · simp only [readRow]
    norm_num
  · norm_num

/-- Claim C10 (amended): for every parsed row in which `Connect` is present,
the reader subtracts the connect time from the latency exactly when the
connect time is strictly **smaller** than the latency (compensating for
latency figures that include connect time), leaves the latency unchanged
otherwise — in particular when connect exceeds latency — and in either case
the sample is yielded, never rejected, with its usual remaining fields. -/
theorem claim_C10_connect_compensation (is_distributed : Bool) (row : JTLRow) (c : ℤ)
    (hc : row.connect = some c) :
    (readRow is_distributed row).con_time = some ((c : ℚ) / 1000) ∧
    (readRow is_distributed row).latency =
      (if (c : ℚ) / 1000 < (row.latencyMs : ℚ) / 1000
        then (row.latencyMs : ℚ) / 1000 - (c : ℚ) / 1000
        else (row.latencyMs : ℚ) / 1000) ∧
    (readRow is_distributed row).r_time = (row.elapsed : ℚ) / 1000 ∧
    (readRow is_distributed row).t_stamp = (row.timeStamp / 1000 : ℕ) := by
  simp only [readRow, hc]
  split_ifs with h
  · refine ⟨?_, ?_, ?_, ?_⟩ <;> first | rfl | trivial
  · refine ⟨?_, ?_, ?_, ?_⟩ <;> first | rfl | trivial

theorem claim_C10_connect_compensation_witness :
    (readRow false ⟨"l", 1, 1, "t", 1000, 3000, some 1000, "200", "true",
        "OK", 1000⟩).con_time = some (((1000 : ℤ) : ℚ) / 1000) ∧
    (readRow false ⟨"l", 1, 1, "t", 1000, 3000, some 1000, "200", "true",
        "OK", 1000⟩).latency =
      (if ((1000 : ℤ) : ℚ) / 1000 < (((3000 : ℤ) : ℚ)) / 1000
        then (((3000 : ℤ) : ℚ)) / 1000 - ((1000 : ℤ) : ℚ) / 1000
        else (((3000 : ℤ) : ℚ)) / 1000) ∧
    (readRow false ⟨"l", 1, 1, "t", 1000, 3000, some 1000, "200", "true",
        "OK", 1000⟩).r_time = (((1000 : ℤ) : ℚ)) / 1000 ∧
    (readRow false ⟨"l", 1, 1, "t", 1000, 3000, some 1000, "200", "true",
        "OK", 1000⟩).t_stamp = ((1000 / 1000 : ℕ) : ℤ) :=
  claim_C10_connect_compensation false
    ⟨"l", 1, 1, "t", 1000, 3000, some 1000, "200", "true", "OK", 1000⟩ 1000 rfl

end Taurus
